import Mathlib

/-!
zdtask: timestamp staleness checker and ordered variable model.

A shallow embedding of `internal/status/timestamp.go` and `taskfile/var.go`.

* Stateful code is written in state-passing style over `Status.World`
  (the file table read by `os.Stat` together with the wall clock).  The
  outcome of every write to the filesystem is left to the environment: it may
  fail, and it may make further spellings of a path stat-able.
* Go `error` results are `Option Error` (`none` is `nil`); a fallible
  library call returns `Except Error _`.
* Collaborators whose code is not part of the two files (`globs`,
  `NormalizeFilename`, `filepath.Join`, `filepath.Dir`) are taken as
  parameters, collected in `Status.Externals`; every theorem holds for all of them.
  So are `fmt.Sprintf` and the calls into the YAML library (`Taskfile.YamlLib`).
* Go maps are given by their entries in the order a `range` loop meets them.
* `Taskfile.Vars` holds the key sequence and the mapping as values; where
  sharing matters (`DeepCopy`), `Taskfile.VarsObj` lays the same struct out over
  a heap of backing arrays and map objects, and `Taskfile.Set_read` relates the two.
-/

namespace Status

/-- Go `error` values, identified with their message. -/
abbrev Error := String

/-- Instants of `time.Time`, counted in nanoseconds from Go's zero time
(January 1, year 1, 00:00:00 UTC).  The zero value `time.Time{}` is `0`;
instants before the zero time are negative. -/
abbrev Time := Int

/-- The zero value `time.Time{}`. -/
def zeroTime : Time := 0

/-- Method `Time.IsZero`. -/
def IsZero (t : Time) : Bool := t == 0

/-- Method `Time.After`: `After a b` is `a.After(b)`. -/
def After (a b : Time) : Bool := decide (b < a)

/-- Function `time.Unix(sec, nsec)`: the Unix epoch lies 62135596800 seconds after the zero time. -/
def Unix (sec nsec : Int) : Time := (62135596800 + sec) * 1000000000 + nsec

/-- The state the checker runs against: `files p` is the modification time
`os.Stat(p)` reports for the path `p`, a file or a directory (`none` when the
stat fails, the path being absent), and `clock` is the reading `time.Now()`
would give. -/
structure World where
  files : String → Option Time
  clock : Time

/-- Let `d` nanoseconds elapse. -/
def World.tick (w : World) (d : Nat) : World :=
  { w with clock := w.clock + (d : Int) }

/-- Function `os.Stat`, reduced to the `ModTime()` of the returned `FileInfo`. -/
def stat (w : World) (p : String) : Except Error Time :=
  match w.files p with
  | some m => .ok m
  | none => .error ("stat " ++ p ++ ": no such file or directory")

/-- The collaborators of `timestamp.go` that live outside the file, and the
answers of the operating system to the writes the file makes. -/
structure Externals where
  /-- The glob expander `globs(dir, patterns)`. -/
  globs : World → String → List String → Except Error (List String)
  /-- The file name normaliser `NormalizeFilename`. -/
  NormalizeFilename : String → String
  /-- Function `filepath.Join`. -/
  Join : List String → String
  /-- Function `filepath.Dir`. -/
  DirOf : String → String
  /-- The spellings that name a directory `os.MkdirAll(dir)` makes: `madeDirs dir q`
  holds when `q` is one of them.  It holds of no path when the call fails at once. -/
  madeDirs : String → String → Bool
  /-- Whether `os.Create(p)` succeeds. -/
  createOk : String → Bool
  /-- Whether `os.Chtimes(p, _, _)` succeeds on an existing `p`. -/
  chtimesOk : String → Bool
  /-- Two spellings that name the same file: `sameFile q p`. -/
  sameFile : String → String → Bool

/-- The spelling `q` names the file that `p` names: it is `p`, or the
environment says so and the two stat alike, as one file does. -/
def isAlias (E : Externals) (w : World) (p q : String) : Bool :=
  decide (q = p) || (E.sameFile q p && decide (w.files q = w.files p))

/-- Function `os.MkdirAll`: every absent spelling of a directory it makes becomes
stat-able, last modified now; what exists stays as it is.  The call may fail,
in part or as a whole, creating fewer directories or none. -/
def MkdirAll (E : Externals) (w : World) (dir : String) : World :=
  { w with files := fun q =>
      match w.files q with
      | some m => some m
      | none => if E.madeDirs dir q then some w.clock else none }

/-- Function `os.Create`: when it succeeds the file exists, last modified now,
under every spelling that names it; when it fails nothing changes. -/
def Create (E : Externals) (w : World) (p : String) : World :=
  if E.createOk p then
    { w with files := fun q => if isAlias E w p q then some w.clock else w.files q }
  else w

/-- Function `os.Chtimes`: when it succeeds it sets the modification time of an
existing file, under every spelling that names it; on an absent path, or when
the operating system refuses, it fails and changes nothing. -/
def Chtimes (E : Externals) (w : World) (p : String) (_atime mtime : Time) : World :=
  match w.files p with
  | some _ =>
    if E.chtimesOk p then
      { w with files := fun q => if isAlias E w p q then some mtime else w.files q }
    else w
  | none => w

/-- The configuration struct `Timestamp`. -/
structure Timestamp where
  TempDir : String
  Task : String
  Dir : String
  Sources : List String
  Generates : List String
  Dry : Bool

/-- Method `timestampFilePath`. -/
def timestampFilePath (E : Externals) (t : Timestamp) : String :=
  E.Join [t.TempDir, "timestamp", E.NormalizeFilename t.Task]

/-- Function `maxTime`. -/
def maxTime (a b : Time) : Time :=
  if After a b then a else b

/-- The loop of `getMaxTime`, started with the running maximum `t`. -/
def getMaxTimeFrom (w : World) (t : Time) : List String → Except Error Time
  | [] => .ok t
  | f :: fs =>
    match stat w f with
    | .error err => .error err
    | .ok m => getMaxTimeFrom w (maxTime t m) fs

/-- Function `getMaxTime`. -/
def getMaxTime (w : World) (files : List String) : Except Error Time :=
  getMaxTimeFrom w zeroTime files

/-- Function `anyFileNewerThan`: stops at the first file newer than `givenTime`. -/
def anyFileNewerThan (w : World) (files : List String) (givenTime : Time) : Except Error Bool :=
  match files with
  | [] => .ok false
  | f :: fs =>
    match stat w f with
    | .error err => .error err
    | .ok m => if After m givenTime then .ok true else anyFileNewerThan w fs givenTime

/-- Lines 35-48 of `IsUpToDate`: stat the sentinel; when it exists it joins the
generated files, otherwise it is created unless `Dry`. -/
def sentinelStep (E : Externals) (t : Timestamp) (w : World) (generates : List String) :
    List String × World :=
  let timestampFile := timestampFilePath E t
  match stat w timestampFile with
  | .ok _ => (generates ++ [timestampFile], w)
  | .error _ =>
    if !t.Dry then
      (generates, Create E (MkdirAll E w (E.DirOf timestampFile)) timestampFile)
    else
      (generates, w)

/-- Lines 50-71 of `IsUpToDate`: the comparison, run once `taskTime` has been read. -/
def compareStep (E : Externals) (t : Timestamp) (w : World) (sources generates : List String) :
    (Bool × Option Error) × World :=
  let taskTime := w.clock
  match getMaxTime w generates with
  | .error _ => ((false, none), w)
  | .ok generateMaxTime =>
    if IsZero generateMaxTime then ((false, none), w)
    else
      match anyFileNewerThan w sources generateMaxTime with
      | .error _ => ((false, none), w)
      | .ok shouldUpdate =>
        let w3 := if !t.Dry then Chtimes E w (timestampFilePath E t) taskTime taskTime else w
        ((!shouldUpdate, none), w3)

/-- Method `Timestamp.IsUpToDate`.  `dCreate` is the time that elapses between
the start of the call and the stat of the sentinel, `dNow` the time that
elapses from there to the `time.Now()` of line 50. -/
def IsUpToDate (E : Externals) (t : Timestamp) (dCreate dNow : Nat) (w : World) :
    (Bool × Option Error) × World :=
  if t.Sources.length = 0 then ((false, none), w)
  else
    match E.globs w t.Dir t.Sources with
    | .error _ => ((false, none), w)
    | .ok sources =>
      match E.globs w t.Dir t.Generates with
      | .error _ => ((false, none), w)
      | .ok generates =>
        let r := sentinelStep E t (w.tick dCreate) generates
        compareStep E t (r.2.tick dNow) sources r.1

/-- Method `Timestamp.Kind`. -/
def Kind (_t : Timestamp) : String := "timestamp"

/-- Method `Timestamp.Value`; `dNow` is the time elapsed when `time.Now()` is read
on a failure path. -/
def Value (E : Externals) (t : Timestamp) (dNow : Nat) (w : World) : Time × Option Error :=
  match E.globs w t.Dir t.Sources with
  | .error err => (w.clock + (dNow : Int), some err)
  | .ok sources =>
    match getMaxTime w sources with
    | .error err => (w.clock + (dNow : Int), some err)
    | .ok sourcesMaxTime =>
      if IsZero sourcesMaxTime then (Unix 0 0, none) else (sourcesMaxTime, none)

/-- Method `Timestamp.OnError`. -/
def OnError (_t : Timestamp) : Option Error := none

end Status

namespace Taskfile

/-- Go `error` values, identified with their message. -/
abbrev Error := String

/-- Dynamically typed values held in an `interface{}` slot. -/
inductive Dyn where
  | str (s : String)
  | int (i : Int)
  | bool (b : Bool)
  | list (items : List Dyn)
  | table (entries : List (String × Dyn))

/-- The struct `Var`; a nil `Live` is `none`. -/
structure Var where
  Static : String
  Live : Option Dyn
  Sh : String
  Dir : String

/-- The zero value of `Var`, which a Go map read returns for an absent key. -/
def Var.zero : Var := { Static := "", Live := none, Sh := "", Dir := "" }

/-- The struct `Vars`.  `Mapping k` is `none` when the Go map has no entry for `k`;
a nil map reads like the empty one and every write below allocates it first,
so the two are not told apart. -/
structure Vars where
  Keys : List String
  Mapping : String → Option Var

/-- The value `&Vars{}`. -/
def Vars.empty : Vars := { Keys := [], Mapping := fun _ => none }

/-- The map read `vs.Mapping[k]`. -/
def Vars.index (vs : Vars) (k : String) : Var := (vs.Mapping k).getD Var.zero

/-- Method `Vars.Set`. -/
def Vars.Set (vs : Vars) (key : String) (value : Var) : Vars :=
  { Keys := if vs.Keys.contains key then vs.Keys else vs.Keys ++ [key]
    Mapping := fun k => if k = key then some value else vs.Mapping k }

/-- The loop of `Vars.Range` over the remaining keys.  The visitor is a Go closure:
`s` is the state it captures, handed in and returned at every call. -/
def rangeLoop {σ : Type} (vs : Vars) (yield : σ → String → Var → σ × Option Error) :
    List String → σ → σ × Option Error
  | [], s => (s, none)
  | k :: ks, s =>
    match yield s k (vs.index k) with
    | (s1, some err) => (s1, some err)
    | (s1, none) => rangeLoop vs yield ks s1

/-- Method `Vars.Range`; a nil receiver is `none`. -/
def Range {σ : Type} (vs : Option Vars) (yield : σ → String → Var → σ × Option Error) (s : σ) :
    σ × Option Error :=
  match vs with
  | none => (s, none)
  | some v => rangeLoop v yield v.Keys s

/-- Method `Vars.Merge`: the receiver after the call (`none` stays `none`). -/
def Merge (vs other : Option Vars) : Option Vars :=
  match vs with
  | none => none
  | some v => some (Range other (fun (r : Vars) key value => (r.Set key value, none)) v).1

/-- Method `Vars.Len`. -/
def Len (vs : Option Vars) : Nat :=
  match vs with
  | none => 0
  | some v => v.Keys.length

/-- The invariant of `Vars`: the key sequence has no repetition and lists exactly
the keys of the mapping. -/
def Vars.Inv (vs : Vars) : Prop :=
  vs.Keys.Nodup ∧ ∀ k, k ∈ vs.Keys ↔ (vs.Mapping k).isSome = true

/-- A visitor that records every call it receives and never fails. -/
def recordVisit (log : List (String × Var)) (k : String) (v : Var) :
    List (String × Var) × Option Error :=
  (log ++ [(k, v)], none)

/-- A sequence of `Set` calls applied to `vs`. -/
def applySets (vs : Vars) (ops : List (String × Var)) : Vars :=
  ops.foldl (fun r p => r.Set p.1 p.2) vs

/-- The value given by the last call for `k` in a sequence of `Set` calls, if any. -/
def lastSet : List (String × Var) → String → Option Var
  | [], _ => none
  | (n, v) :: rest, k =>
    match lastSet rest k with
    | some v1 => some v1
    | none => if n = k then some v else none

end Taskfile

namespace Status

/-- The generated-output files of the specification: the declared outputs plus
the sentinel file when it exists at the start of the call. -/
def generatedSet (E : Externals) (t : Timestamp) (w : World) (gens : List String) : List String :=
  gens ++ (if (w.files (timestampFilePath E t)).isSome then [timestampFilePath E t] else [])

/-- `M` is the maximum modification time among the files `fs`, all of which exist. -/
def IsMaxModTime (w : World) (fs : List String) (M : Time) : Prop :=
  (∃ f ∈ fs, w.files f = some M) ∧ ∀ f ∈ fs, ∃ m, w.files f = some m ∧ m ≤ M

/-- The world in which `IsUpToDate` runs its comparison, the expansion of the
generated outputs being `gens`: the sentinel step is over and `taskTime` is read. -/
def comparisonWorld (E : Externals) (t : Timestamp) (dCreate dNow : Nat) (w : World)
    (gens : List String) : World :=
  (sentinelStep E t (w.tick dCreate) gens).2.tick dNow

/-- A failure met by `IsUpToDate`: an expansion fails, or the stat of one of the
files it compares (generated files, with the sentinel when it exists, and
source files) fails when the comparison runs. -/
def FailureOccurs (E : Externals) (t : Timestamp) (dCreate dNow : Nat) (w : World) : Prop :=
  (∃ err, E.globs w t.Dir t.Sources = .error err) ∨
  (∃ err, E.globs w t.Dir t.Generates = .error err) ∨
  ∃ srcs gens, E.globs w t.Dir t.Sources = .ok srcs ∧ E.globs w t.Dir t.Generates = .ok gens ∧
    ∃ f ∈ generatedSet E t w gens ++ srcs,
      ∃ err, stat (comparisonWorld E t dCreate dNow w gens) f = .error err

/-- A world given by a finite table of files. -/
def mkWorld (entries : List (String × Time)) (clock : Time) : World :=
  { files := fun p => entries.lookup p, clock := clock }

/-- Example collaborators: every pattern expands to itself, task names are kept
as they are and path elements are joined with a slash; every write succeeds,
`MkdirAll` makes the directory asked for, and `./p` names the same file as `p`. -/
def exE : Externals :=
  { globs := fun _ _ ps => .ok ps
    NormalizeFilename := fun s => s
    Join := fun xs => String.intercalate "/" xs
    DirOf := fun _ => "tmp/timestamp"
    madeDirs := fun dir q => decide (q = dir)
    createOk := fun _ => true
    chtimesOk := fun _ => true
    sameFile := fun q p => decide (q = "./" ++ p) }

/-- Example collaborators whose glob expansion always fails. -/
def exEFail : Externals :=
  { exE with globs := fun _ _ _ => .error "glob: bad pattern" }

/-- Example collaborators whose glob expansion matches nothing. -/
def exENone : Externals :=
  { exE with globs := fun _ _ _ => .ok [] }

/-- Example task: `main.o` is built from `main.c`; the sentinel is `tmp/timestamp/build`. -/
def exT (dry : Bool) : Timestamp :=
  { TempDir := "tmp", Task := "build", Dir := ".", Sources := ["main.c"],
    Generates := ["main.o"], Dry := dry }

/-- Example task whose only source pattern names the task's own sentinel file. -/
def exTSelf : Timestamp :=
  { exT false with Sources := ["tmp/timestamp/build"] }

/-- Example task whose only source pattern names the task's own sentinel file
under another spelling. -/
def exTAlias : Timestamp :=
  { exT false with Sources := ["./tmp/timestamp/build"] }

/-- Example task whose only source pattern names the directory of the sentinel. -/
def exTDir : Timestamp :=
  { exT false with Sources := ["tmp/timestamp"] }

end Status


namespace Taskfile

/-- A variable holding the literal `s`. -/
def lit (s : String) : Var := { Static := s, Live := none, Sh := "", Dir := "" }

/-- Example receiver with the names `x`, `y`. -/
def exA : Vars := (Vars.empty.Set "x" (lit "ax")).Set "y" (lit "ay")

/-- Example argument with the names `y`, `z`. -/
def exB : Vars := (Vars.empty.Set "y" (lit "by")).Set "z" (lit "bz")

end Taskfile

namespace Taskfile

/-- Method `Vars.ToCacheMap`.  The result map is the state captured by the
visitor; a `Static` string is stored boxed in an `interface{}`. -/
def ToCacheMap (vs : Option Vars) : String → Option Dyn :=
  (Range vs
    (fun (m : String → Option Dyn) k v =>
      if v.Sh ≠ "" then (m, none)
      else
        match v.Live with
        | some live => (fun x => if x = k then some live else m x, none)
        | none => (fun x => if x = k then some (Dyn.str v.Static) else m x, none))
    (fun _ => none)).1

/-- The value `ToCacheMap` stores for a variable that is not deferred: `Live` when
it is non-nil, `Static` otherwise. -/
def cacheValue (v : Var) : Dyn :=
  match v.Live with
  | some live => live
  | none => Dyn.str v.Static

/-- A visitor wrapped so that every call it receives is recorded, with the entry
passed and the error it returned. -/
def logVisits {σ : Type} (yield : σ → String → Var → σ × Option Error)
    (st : σ × List (String × Var × Option Error)) (k : String) (v : Var) :
    (σ × List (String × Var × Option Error)) × Option Error :=
  ((( yield st.1 k v).1, st.2 ++ [(k, v, (yield st.1 k v).2)]), (yield st.1 k v).2)

/-- The entries of a `Vars` in the order of its key sequence. -/
def Vars.entries (vs : Vars) : List (String × Var) :=
  vs.Keys.map (fun k => (k, vs.index k))

/-- An example visitor that counts its calls and fails on the name `y`. -/
def failOnY (n : Nat) (k : String) (_v : Var) : Nat × Option Error :=
  (n + 1, if k = "y" then some "stop at y" else none)

/-- Example with a deferred variable and a resolved one. -/
def exC : Vars :=
  ((Vars.empty.Set "a" (lit "1")).Set "b" { Static := "s", Live := none, Sh := "echo b", Dir := "" }).Set
    "c" { Static := "old", Live := some (Dyn.int 7), Sh := "", Dir := "" }

end Taskfile

namespace Taskfile

/-- The `reflect.Type` of the values the model knows, and of the empty interface. -/
inductive GoType where
  | string
  | int64
  | bool
  | slice
  | map
  | iface
  deriving DecidableEq

/-- The dynamic type `reflect.ValueOf(value).Type()` of a non-nil value; it is
never an interface type. -/
def Dyn.typeOf : Dyn → GoType
  | .str _ => .string
  | .int _ => .int64
  | .bool _ => .bool
  | .list _ => .slice
  | .table _ => .map

/-- The fields of the struct `Var`. -/
inductive Field where
  | Static
  | Live
  | Sh
  | Dir
  deriving DecidableEq

/-- The lookup `structValue.FieldByName(name)` on a `Var`. -/
def FieldByName (name : String) : Option Field :=
  if name = "Static" then some .Static
  else if name = "Live" then some .Live
  else if name = "Sh" then some .Sh
  else if name = "Dir" then some .Dir
  else none

/-- The declared type of a field of `Var`. -/
def Field.type : Field → GoType
  | .Static => .string
  | .Live => .iface
  | .Sh => .string
  | .Dir => .string

/-- The call `structFieldValue.Set(val)`.  It is only reached with a value of
the field's type; on any other value `reflect` panics, which the last case
stands for. -/
def Var.assign (v : Var) : Field → Dyn → Var
  | .Static, .str s => { v with Static := s }
  | .Sh, .str s => { v with Sh := s }
  | .Dir, .str s => { v with Dir := s }
  | .Live, d => { v with Live := some d }
  | _, _ => v

/-- Lines 203-209 of `SetField`: upper-case the first character of the name.
For a name that starts outside ASCII the Go code works on the first byte; the
outcome is no field name there either. -/
def exportName (name : String) : String :=
  match name.data with
  | [] => name
  | c :: cs => String.mk (c.toUpper :: cs)

/-- Function `SetField`, called on a `*Var`: the `Var` afterwards and the error.
Every field of `Var` is exported, so `CanSet` holds. -/
def SetField (obj : Var) (name : String) (value : Dyn) : Var × Option Error :=
  match FieldByName (exportName name) with
  | none => (obj, some ("No such field: " ++ exportName name ++ " in obj"))
  | some f =>
    if f.type ≠ value.typeOf then
      (obj, some "Provided value type didn't match object field type")
    else
      (obj.assign f value, none)

/-- Method `Var.FillStruct`; the list gives the entries of the map in the order
the `range` loop meets them. -/
def FillStruct (v : Var) : List (String × Dyn) → Var × Option Error
  | [] => (v, none)
  | (k, value) :: rest =>
    match SetField v k value with
    | (v1, some err) => (v1, some err)
    | (v1, none) => FillStruct v1 rest

/-- The inner loop of `UnmarshalTOML` (lines 61-76) over the entries of a nested
map.  `v` is the variable declared on line 52, shared by all iterations. -/
def tomlInner (Sprintf : Dyn → String) : List (String × Dyn) → Var → Vars → Vars × Option Error
  | [], _, vs => (vs, none)
  | (k, inter) :: rest, v, vs =>
    match inter with
    | .table m =>
      match FillStruct v m with
      | (_, some err) =>
        ({ vs with Keys := vs.Keys ++ [k] },
          some ("[var=" ++ Sprintf inter ++ "] is [type=map[string]interface {}] and not [type=Var] [error="
            ++ err ++ "]"))
      | (v1, none) =>
        tomlInner Sprintf rest v1
          { Keys := vs.Keys ++ [k], Mapping := fun x => if x = k then some v1 else vs.Mapping x }
    | _ =>
      tomlInner Sprintf rest { v with Static := Sprintf inter }
        { Keys := vs.Keys ++ [k]
          Mapping := fun x => if x = k then some { v with Static := Sprintf inter } else vs.Mapping x }

/-- The outer loop of `UnmarshalTOML` (lines 51-77). -/
def tomlOuter (Sprintf : Dyn → String) : List (String × Dyn) → Vars → Vars × Option Error
  | [], vs => (vs, none)
  | (k, inter) :: rest, vs =>
    match inter with
    | .table m =>
      match tomlInner Sprintf m Var.zero vs with
      | (vs1, some err) => (vs1, some err)
      | (vs1, none) => tomlOuter Sprintf rest vs1
    | _ =>
      tomlOuter Sprintf rest
        { Keys := vs.Keys ++ [k]
          Mapping := fun x =>
            if x = k then some { Var.zero with Static := Sprintf inter } else vs.Mapping x }

/-- Method `Vars.UnmarshalTOML`.  `Sprintf` is `fmt.Sprintf` with the verb `%+v`;
a map is given by its entries in the order the `range` loop meets them. -/
def UnmarshalTOML (Sprintf : Dyn → String) (vs : Vars) (inter : Dyn) : Vars × Option Error :=
  match inter with
  | .table interMapping => tomlOuter Sprintf interMapping vs
  | _ =>
    (vs, some "vars is [type=map[string]interface {}] and not [type=map[string]interface{}]")

/-- An example `Sprintf`: strings, integers and booleans as `fmt` prints them;
composite values do not occur in the examples. -/
def exSprintf : Dyn → String
  | .str s => s
  | .int i => toString i
  | .bool b => toString b
  | _ => ""

end Taskfile

namespace Taskfile

/-- The constants `yaml.Kind`. -/
inductive Kind where
  | DocumentNode
  | SequenceNode
  | MappingNode
  | ScalarNode
  | AliasNode
  deriving DecidableEq

/-- The struct `yaml.Node`, reduced to what the decoders read: its kind, its
scalar text, its line, the result of `ShortTag()`, its children and the target
of an alias. -/
inductive Node where
  | mk (kind : Kind) (value : String) (line : Nat) (shortTag : String)
      (content : List Node) (aliasOf : Option Node)

/-- Field `Kind`. -/
def Node.Kind : Node → Kind
  | .mk k _ _ _ _ _ => k

/-- Field `Value`. -/
def Node.Value : Node → String
  | .mk _ v _ _ _ _ => v

/-- Field `Line`. -/
def Node.Line : Node → Nat
  | .mk _ _ l _ _ _ => l

/-- Method `ShortTag`. -/
def Node.ShortTag : Node → String
  | .mk _ _ _ t _ _ => t

/-- Field `Content`. -/
def Node.Content : Node → List Node
  | .mk _ _ _ _ c _ => c

/-- Field `Alias`. -/
def Node.Alias : Node → Option Node
  | .mk _ _ _ _ _ a => a

/-- The two calls into the YAML library made by `Var.UnmarshalYAML`. -/
structure YamlLib where
  /-- The call `node.Decode(&str)` with `str` a string. -/
  DecodeString : Node → Except Error String
  /-- The call `node.Decode(&sh)` with `sh` a struct whose only field is `Sh`;
  the result is that field. -/
  DecodeSh : Node → Except Error String

/-- Method `Var.UnmarshalYAML`: the `Var` afterwards and the error. -/
def Var.UnmarshalYAML (L : YamlLib) (v : Var) (node : Node) : Var × Option Error :=
  match node.Kind with
  | .ScalarNode =>
    match L.DecodeString node with
    | .error err => (v, some err)
    | .ok str => ({ v with Static := str }, none)
  | .MappingNode =>
    match L.DecodeSh node with
    | .error err => (v, some err)
    | .ok sh => ({ v with Sh := sh }, none)
  | _ =>
    (v, some ("yaml: line " ++ toString node.Line ++ ": cannot unmarshal " ++ node.ShortTag
      ++ " into variable"))

/-- The call `valueNode.Decode(&v)` on a fresh `Var`, as the library performs it:
it follows an alias to its target, decodes a node tagged null to the zero value
without calling the unmarshaler, and otherwise hands the node to
`Var.UnmarshalYAML`. -/
def Node.DecodeVar (L : YamlLib) (valueNode : Node) : Var × Option Error :=
  let target :=
    match valueNode.Kind, valueNode.Alias with
    | .AliasNode, some n => n
    | _, _ => valueNode
  if target.ShortTag = "!!null" then (Var.zero, none)
  else Var.UnmarshalYAML L Var.zero target

/-- The loop of `Vars.UnmarshalYAML` over `node.Content`, two nodes at a time;
`Decode` is the call `valueNode.Decode(&v)`.  The result is `none` when the loop
indexes past the end of an odd-length content, where the Go code panics. -/
def yamlLoop (Decode : Node → Var × Option Error) : List Node → Vars → Option (Vars × Option Error)
  | [], vs => some (vs, none)
  | [_], _ => none
  | keyNode :: valueNode :: rest, vs =>
    match Decode valueNode with
    | (_, some err) => some (vs, some err)
    | (v, none) => yamlLoop Decode rest (vs.Set keyNode.Value v)

/-- Method `Vars.UnmarshalYAML`; `Decode` is the call `valueNode.Decode(&v)`. -/
def Vars.UnmarshalYAML (Decode : Node → Var × Option Error) (vs : Vars) (node : Node) :
    Option (Vars × Option Error) :=
  match node.Kind with
  | .MappingNode => yamlLoop Decode node.Content vs
  | _ =>
    some (vs, some ("yaml: line " ++ toString node.Line ++ ": cannot unmarshal " ++ node.ShortTag
      ++ " into variables"))

/-- The key and value nodes of a mapping content of even length. -/
def contentPairs : List Node → List (Node × Node)
  | k :: v :: rest => (k, v) :: contentPairs rest
  | _ => []

/-- A plain scalar node holding `s`. -/
def scalarNode (s : String) (line : Nat) : Node :=
  .mk .ScalarNode s line "!!str" [] none

/-- A mapping node with the given key and value nodes in document order. -/
def mappingNode (content : List Node) (line : Nat) : Node :=
  .mk .MappingNode "" line "!!map" content none

/-- A sequence node. -/
def sequenceNode (items : List Node) (line : Nat) : Node :=
  .mk .SequenceNode "" line "!!seq" items none

/-- The value found under the key `sh` in a mapping content, if any. -/
def lookupSh : List Node → Option Node
  | k :: v :: rest => if k.Value = "sh" then some v else lookupSh rest
  | _ => none

/-- An example library with the default behaviour of the decoder: a scalar
decodes to its text; a mapping decodes into the struct field by field, keys
that name no field being skipped and an absent key leaving the field empty. -/
def exYaml : YamlLib :=
  { DecodeString := fun n => .ok n.Value
    DecodeSh := fun n =>
      match lookupSh n.Content with
      | none => .ok ""
      | some v =>
        if v.Kind = .ScalarNode then .ok v.Value
        else .error ("yaml: line " ++ toString v.Line ++ ": cannot unmarshal " ++ v.ShortTag
          ++ " into string") }

end Taskfile

namespace Taskfile

/-- A slice header of type `[]string`: the address of its backing array and its
length; its capacity is the length of the backing array. -/
structure Slice where
  arr : Nat
  len : Nat

/-- The struct `Vars` as it lies in memory: the header of `Keys` and the
reference held in `Mapping`, `none` standing for a nil slice and a nil map. -/
structure VarsObj where
  Keys : Option Slice
  Mapping : Option Nat

/-- The part of the Go heap that `Vars` values refer to: the backing arrays and
the map objects by address, the first unused address, and the spare capacity
the runtime adds when it grows a slice of a given length. -/
structure Heap where
  arrays : Nat → List String
  maps : Nat → String → Option Var
  next : Nat
  spare : Nat → Nat

/-- The elements of a slice. -/
def Heap.elems (h : Heap) : Option Slice → List String
  | none => []
  | some s => (h.arrays s.arr).take s.len

/-- The key sequence of a `Vars` in memory. -/
def VarsObj.keysIn (o : VarsObj) (h : Heap) : List String := h.elems o.Keys

/-- The mapping of a `Vars` in memory; a nil map has no entry. -/
def VarsObj.mappingIn (o : VarsObj) (h : Heap) : String → Option Var :=
  match o.Mapping with
  | none => fun _ => none
  | some a => h.maps a

/-- The `Vars` value that a `Vars` in memory holds. -/
def VarsObj.read (o : VarsObj) (h : Heap) : Vars :=
  { Keys := o.keysIn h, Mapping := o.mappingIn h }

/-- The references of a `Vars` in memory point to allocated objects, and the
length of its slice is within the capacity. -/
def VarsObj.Valid (o : VarsObj) (h : Heap) : Prop :=
  (∀ s, o.Keys = some s → s.arr < h.next ∧ s.len ≤ (h.arrays s.arr).length) ∧
  (∀ a, o.Mapping = some a → a < h.next)

/-- The built-in `make` for a map: a new empty map object. -/
def Heap.makeMap (h : Heap) : Heap × Nat :=
  ({ h with maps := fun a => if a = h.next then fun _ => none else h.maps a
            next := h.next + 1 }, h.next)

/-- The built-in `append` of one element: within the capacity the element is
written into the shared backing array, otherwise a new array is allocated. -/
def Heap.append (h : Heap) (s : Option Slice) (x : String) : Heap × Slice :=
  match s with
  | some s =>
    if s.len < (h.arrays s.arr).length then
      ({ h with arrays := fun a => if a = s.arr then (h.arrays s.arr).set s.len x else h.arrays a },
        { arr := s.arr, len := s.len + 1 })
    else
      ({ h with arrays := fun a =>
                  if a = h.next then
                    h.elems (some s) ++ [x] ++ List.replicate (h.spare s.len) ""
                  else h.arrays a
                next := h.next + 1 },
        { arr := h.next, len := s.len + 1 })
  | none =>
    ({ h with arrays := fun a =>
                if a = h.next then [x] ++ List.replicate (h.spare 0) "" else h.arrays a
              next := h.next + 1 },
      { arr := h.next, len := 1 })

/-- Method `Vars.Set` on a `Vars` in memory: the heap and the struct afterwards. -/
def VarsObj.Set (o : VarsObj) (h : Heap) (key : String) (value : Var) : Heap × VarsObj :=
  let r1 : Heap × Nat :=
    match o.Mapping with
    | none => h.makeMap
    | some a => (h, a)
  let r2 : Heap × Option Slice :=
    if (r1.1.elems o.Keys).contains key then (r1.1, o.Keys)
    else ((r1.1.append o.Keys key).1, some (r1.1.append o.Keys key).2)
  ({ r2.1 with maps := fun a =>
                 if a = r1.2 then fun k => if k = key then some value else r2.1.maps r1.2 k
                 else r2.1.maps a },
    { Keys := r2.2, Mapping := some r1.2 })

/-- Modelled from the spec: the helper `deepCopySlice`, whose code is not in the
two files.  It returns a copied order sequence: a new backing array holding the
elements of the slice, and nil for nil. -/
def deepCopySlice (h : Heap) (s : Option Slice) : Heap × Option Slice :=
  match s with
  | none => (h, none)
  | some s =>
    ({ h with arrays := fun a => if a = h.next then h.elems (some s) else h.arrays a
              next := h.next + 1 },
      some { arr := h.next, len := s.len })

/-- Modelled from the spec: the helper `deepCopyMap`, whose code is not in the
two files.  It returns a copied mapping: a new map object with the same
entries, each `Var` copied by value, and nil for nil. -/
def deepCopyMap (h : Heap) (m : Option Nat) : Heap × Option Nat :=
  match m with
  | none => (h, none)
  | some a =>
    ({ h with maps := fun b => if b = h.next then h.maps a else h.maps b
              next := h.next + 1 },
      some h.next)

/-- Method `Vars.DeepCopy`; a nil receiver is `none`. -/
def DeepCopy (h : Heap) (vs : Option VarsObj) : Heap × Option VarsObj :=
  match vs with
  | none => (h, none)
  | some o =>
    ((deepCopyMap (deepCopySlice h o.Keys).1 o.Mapping).1,
      some { Keys := (deepCopySlice h o.Keys).2
             Mapping := (deepCopyMap (deepCopySlice h o.Keys).1 o.Mapping).2 })

/-- An example heap: array 0 holds `x`, `y` with one spare slot, map 1 holds
their values. -/
def exHeap : Heap :=
  { arrays := fun a => if a = 0 then ["x", "y", ""] else []
    maps := fun a => if a = 1 then exA.Mapping else fun _ => none
    next := 2
    spare := fun n => n }

/-- An example `Vars` in `exHeap` with the names `x`, `y`. -/
def exObj : VarsObj := { Keys := some { arr := 0, len := 2 }, Mapping := some 1 }

end Taskfile
/-! ## Timestamp checker: auxiliary facts -/

namespace Status

theorem stat_eq_ok {w : World} {p : String} {m : Time} (h : w.files p = some m) :
    stat w p = .ok m := by
  simp [stat, h]

theorem stat_eq_error {w : World} {p : String} (h : w.files p = none) :
    ∃ err, stat w p = .error err := by
  simp [stat, h]

theorem maxTime_eq_max (a b : Time) : maxTime a b = max a b := by
  unfold maxTime After
  by_cases h : b < a
  · simp [h, max_eq_left (le_of_lt h)]
  · simp [h, max_eq_right (not_lt.mp h)]

theorem getMaxTimeFrom_congr {w1 w2 : World} (fs : List String)
    (h : ∀ f ∈ fs, w1.files f = w2.files f) (t : Time) :
    getMaxTimeFrom w1 t fs = getMaxTimeFrom w2 t fs := by
  induction fs generalizing t with
  | nil => rfl
  | cons f fs ih =>
    have hf : w1.files f = w2.files f := h f (List.mem_cons_self f fs)
    have ht : ∀ g ∈ fs, w1.files g = w2.files g := fun g hg => h g (List.mem_cons_of_mem f hg)
    simp only [getMaxTimeFrom, stat, hf]
    cases w2.files f with
    | none => rfl
    | some m => exact ih ht _

/-- When every listed file exists, `getMaxTimeFrom` succeeds with a bound of all
modification times that is the start value or one of them. -/
theorem getMaxTimeFrom_ok (w : World) (fs : List String) (t : Time)
    (h : ∀ f ∈ fs, ∃ m, w.files f = some m) :
    ∃ M, getMaxTimeFrom w t fs = .ok M ∧ t ≤ M ∧
      (∀ f ∈ fs, ∀ m, w.files f = some m → m ≤ M) ∧
      (M = t ∨ ∃ f ∈ fs, w.files f = some M) := by
  induction fs generalizing t with
  | nil => exact ⟨t, rfl, le_refl t, by simp, Or.inl rfl⟩
  | cons f fs ih =>
    obtain ⟨m, hm⟩ := h f (List.mem_cons_self f fs)
    obtain ⟨M, hM, hle, hall, hwit⟩ :=
      ih (maxTime t m) (fun g hg => h g (List.mem_cons_of_mem f hg))
    rw [maxTime_eq_max] at hM hle hwit
    refine ⟨M, ?_, le_trans (le_max_left t m) hle, ?_, ?_⟩
    · simp only [getMaxTimeFrom, stat, hm, maxTime_eq_max]
      exact hM
    · intro g hg mg hmg
      rcases List.mem_cons.mp hg with rfl | hg
      · rw [hm] at hmg
        have hmm : m = mg := Option.some.inj hmg
        rw [← hmm]
        exact le_trans (le_max_right t m) hle
      · exact hall g hg mg hmg
    · rcases hwit with hwit | ⟨g, hg, hgM⟩
      · rcases le_total t m with htm | hmt
        · right
          refine ⟨f, List.mem_cons_self f fs, ?_⟩
          rw [hm, hwit, max_eq_right htm]
        · left
          rw [hwit, max_eq_left hmt]
      · exact Or.inr ⟨g, List.mem_cons_of_mem f hg, hgM⟩

/-- The loop `getMaxTimeFrom` fails exactly when a listed file is missing. -/
theorem getMaxTimeFrom_error_iff (w : World) (fs : List String) (t : Time) :
    (∃ err, getMaxTimeFrom w t fs = .error err) ↔ ∃ f ∈ fs, w.files f = none := by
  induction fs generalizing t with
  | nil => simp [getMaxTimeFrom]
  | cons f fs ih =>
    cases hf : w.files f with
    | none => simp [getMaxTimeFrom, stat, hf]
    | some m =>
      simp only [getMaxTimeFrom, stat, hf, ih, List.mem_cons, exists_eq_or_imp]
      simp

/-- The scan `anyFileNewerThan` answers `false` exactly when every listed file
exists and none is newer than the given time. -/
theorem anyFileNewerThan_false_iff (w : World) (fs : List String) (g : Time) :
    anyFileNewerThan w fs g = .ok false ↔ ∀ f ∈ fs, ∃ m, w.files f = some m ∧ m ≤ g := by
  induction fs with
  | nil => simp [anyFileNewerThan]
  | cons f fs ih =>
    cases hf : w.files f with
    | none => simp [anyFileNewerThan, stat, hf]
    | some m =>
      by_cases hm : g < m
      · simp [anyFileNewerThan, stat, hf, After, hm]
      · simp [anyFileNewerThan, stat, hf, After, hm, ih, not_lt.mp hm]

/-- With a missing file in the list, `anyFileNewerThan` never answers `false`. -/
theorem anyFileNewerThan_missing (w : World) (fs : List String) (g : Time)
    (h : ∃ f ∈ fs, w.files f = none) :
    anyFileNewerThan w fs g = .ok true ∨ ∃ err, anyFileNewerThan w fs g = .error err := by
  cases hr : anyFileNewerThan w fs g with
  | error err => exact Or.inr ⟨err, rfl⟩
  | ok b =>
    cases b with
    | true => exact Or.inl rfl
    | false =>
      obtain ⟨f, hf, hnone⟩ := h
      obtain ⟨m, hm, _⟩ := (anyFileNewerThan_false_iff w fs g).mp hr f hf
      rw [hnone] at hm
      cases hm

end Status

namespace Status

@[simp] theorem tick_clock (w : World) (d : Nat) : (w.tick d).clock = w.clock + (d : Int) := rfl

/-- What exists stays as it is across `MkdirAll`. -/
theorem MkdirAll_files_of_some (E : Externals) (w : World) (dir : String) {p : String}
    {m : Time} (h : w.files p = some m) : (MkdirAll E w dir).files p = some m := by
  simp [MkdirAll, h]

/-- A path that `MkdirAll` finds absent is absent afterwards or was made now. -/
theorem MkdirAll_files_of_none (E : Externals) (w : World) (dir : String) {p : String}
    (h : w.files p = none) :
    (MkdirAll E w dir).files p = none ∨ (MkdirAll E w dir).files p = some w.clock := by
  cases hd : E.madeDirs dir p <;> simp [MkdirAll, h, hd]

/-- Across `Create` of a path that is absent, or was made at this very instant,
every other file keeps its modification time. -/
theorem Create_files_of_some (E : Externals) (w : World) (p : String) {q : String} {m : Time}
    (hp : w.files p = none ∨ w.files p = some w.clock) (h : w.files q = some m) :
    (Create E w p).files q = some m := by
  unfold Create
  cases hc : E.createOk p with
  | false => simpa using h
  | true =>
    simp only [if_true]
    cases ha : isAlias E w p q with
    | false => simpa using h
    | true =>
      simp only [if_true]
      have hqp : w.files q = w.files p := by
        simp only [isAlias, Bool.or_eq_true, Bool.and_eq_true, decide_eq_true_eq] at ha
        rcases ha with e | ⟨_, e⟩
        · rw [e]
        · exact e
      rw [hqp] at h
      rcases hp with hp | hp
      · rw [hp] at h
        cases h
      · rw [hp] at h
        exact h

theorem sentinelStep_fst (E : Externals) (t : Timestamp) (w : World) (gens : List String) :
    (sentinelStep E t w gens).1 = generatedSet E t w gens := by
  cases hS : w.files (timestampFilePath E t) with
  | none => cases hD : t.Dry <;> simp [sentinelStep, generatedSet, stat, hS, hD]
  | some m => simp [sentinelStep, generatedSet, stat, hS]

/-- With an existing sentinel the sentinel step writes nothing. -/
theorem sentinelStep_of_some (E : Externals) (t : Timestamp) (w : World) (gens : List String)
    {m : Time} (h : w.files (timestampFilePath E t) = some m) :
    (sentinelStep E t w gens).2 = w := by
  simp [sentinelStep, stat, h]

/-- In a dry run the sentinel step writes nothing. -/
theorem sentinelStep_dry (E : Externals) (t : Timestamp) (w : World) (gens : List String)
    (h : t.Dry = true) : (sentinelStep E t w gens).2 = w := by
  cases hS : w.files (timestampFilePath E t) <;> simp [sentinelStep, stat, hS, h]

/-- The world after the sentinel step when the sentinel is absent outside a dry run. -/
theorem sentinelStep_created (E : Externals) (t : Timestamp) (w : World) (gens : List String)
    (hS : w.files (timestampFilePath E t) = none) (hD : t.Dry = false) :
    (sentinelStep E t w gens).2 =
      Create E (MkdirAll E w (E.DirOf (timestampFilePath E t))) (timestampFilePath E t) := by
  simp [sentinelStep, stat, hS, hD]

/-- The sentinel step leaves every existing file as it is. -/
theorem sentinelStep_files_of_some (E : Externals) (t : Timestamp) (w : World)
    (gens : List String) {p : String} {m : Time} (h : w.files p = some m) :
    (sentinelStep E t w gens).2.files p = some m := by
  cases hS : w.files (timestampFilePath E t) with
  | some m0 => rw [sentinelStep_of_some E t w gens hS]; exact h
  | none =>
    cases hD : t.Dry with
    | true => rw [sentinelStep_dry E t w gens hD]; exact h
    | false =>
      rw [sentinelStep_created E t w gens hS hD]
      exact Create_files_of_some E _ _ (MkdirAll_files_of_none E w _ hS)
        (MkdirAll_files_of_some E w _ h)

/-- A path absent after the sentinel step was absent before it. -/
theorem sentinelStep_files_none (E : Externals) (t : Timestamp) (w : World)
    (gens : List String) {p : String} (h : (sentinelStep E t w gens).2.files p = none) :
    w.files p = none := by
  cases hp : w.files p with
  | none => rfl
  | some m =>
    rw [sentinelStep_files_of_some E t w gens hp] at h
    cases h

/-- The body of `IsUpToDate` once both expansions have succeeded. -/
theorem IsUpToDate_eq_compareStep (E : Externals) (t : Timestamp) (dCreate dNow : Nat)
    (w : World) {srcs gens : List String} (hS : t.Sources ≠ [])
    (hgs : E.globs w t.Dir t.Sources = .ok srcs)
    (hgg : E.globs w t.Dir t.Generates = .ok gens) :
    IsUpToDate E t dCreate dNow w =
      compareStep E t ((sentinelStep E t (w.tick dCreate) gens).2.tick dNow) srcs
        (sentinelStep E t (w.tick dCreate) gens).1 := by
  have hlen : t.Sources.length ≠ 0 := by
    simpa [List.length_eq_zero] using hS
  simp [IsUpToDate, hlen, hgs, hgg]

/-- The comparison when no stat fails and the generated maximum is not the zero time. -/
theorem compareStep_completed (E : Externals) (t : Timestamp) (w : World)
    {srcs G : List String} {M : Time} {b : Bool}
    (hM : getMaxTime w G = .ok M) (hz : M ≠ 0)
    (hb : anyFileNewerThan w srcs M = .ok b) :
    compareStep E t w srcs G =
      ((!b, none),
        if t.Dry = false then Chtimes E w (timestampFilePath E t) w.clock w.clock else w) := by
  have hz2 : IsZero M = false := by simp [IsZero, hz]
  cases hD : t.Dry <;> simp [compareStep, hM, hz2, hb, hD]

/-- The comparison returns `(false, nil)` and writes nothing when it stops early. -/
theorem compareStep_stopped (E : Externals) (t : Timestamp) (w : World)
    {srcs G : List String}
    (h : (∃ err, getMaxTime w G = .error err) ∨ getMaxTime w G = .ok 0 ∨
      ∃ M err, getMaxTime w G = .ok M ∧ anyFileNewerThan w srcs M = .error err) :
    compareStep E t w srcs G = ((false, none), w) := by
  rcases h with ⟨err, he⟩ | h0 | ⟨M, err, hM, he⟩
  · simp [compareStep, he]
  · simp [compareStep, h0, IsZero]
  · by_cases hz : IsZero M = true
    · simp [compareStep, hM, hz]
    · simp [compareStep, hM, hz, he]

end Status

namespace Status

end Status

/-! ## Timestamp checker: verified properties -/

namespace Status

end Status

namespace Status

/-- With an existing sentinel, or in a dry run, the comparison sees the files of `w`. -/
theorem comparisonWorld_files_of_no_create (E : Externals) (t : Timestamp) (dCreate dNow : Nat)
    (w : World) (gens : List String)
    (h : t.Dry = true ∨ ∃ m, w.files (timestampFilePath E t) = some m) :
    (comparisonWorld E t dCreate dNow w gens).files = w.files := by
  unfold comparisonWorld
  rcases h with hD | ⟨m, hm⟩
  · rw [sentinelStep_dry E t _ gens hD]
    rfl
  · rw [sentinelStep_of_some E t (w.tick dCreate) gens (by simpa using hm)]
    rfl

theorem IsUpToDate_eq_comparison (E : Externals) (t : Timestamp) (dCreate dNow : Nat)
    (w : World) {srcs gens : List String} (hS : t.Sources ≠ [])
    (hgs : E.globs w t.Dir t.Sources = .ok srcs)
    (hgg : E.globs w t.Dir t.Generates = .ok gens) :
    IsUpToDate E t dCreate dNow w =
      compareStep E t (comparisonWorld E t dCreate dNow w gens) srcs
        (generatedSet E t w gens) := by
  rw [IsUpToDate_eq_compareStep E t dCreate dNow w hS hgs hgg, sentinelStep_fst]
  rfl

/-- The comparison never returns an error. -/
theorem compareStep_error (E : Externals) (t : Timestamp) (w : World) (srcs G : List String) :
    (compareStep E t w srcs G).1.2 = none := by
  cases hM : getMaxTime w G with
  | error err => simp [compareStep, hM]
  | ok M =>
    cases hz : IsZero M with
    | true => simp [compareStep, hM, hz]
    | false =>
      cases hb : anyFileNewerThan w srcs M with
      | error err => simp [compareStep, hM, hz, hb]
      | ok b => simp [compareStep, hM, hz, hb]

/-- In a dry run the comparison writes nothing. -/
theorem compareStep_dry (E : Externals) (t : Timestamp) (w : World) (srcs G : List String)
    (hD : t.Dry = true) : (compareStep E t w srcs G).2 = w := by
  cases hM : getMaxTime w G with
  | error err => simp [compareStep, hM]
  | ok M =>
    cases hz : IsZero M with
    | true => simp [compareStep, hM, hz]
    | false =>
      cases hb : anyFileNewerThan w srcs M with
      | error err => simp [compareStep, hM, hz, hb]
      | ok b => simp [compareStep, hM, hz, hb, hD]

/-- A missing file among those compared makes the comparison answer `(false, nil)`. -/
theorem compareStep_missing (E : Externals) (t : Timestamp) (w : World) (srcs G : List String)
    (h : ∃ f ∈ G ++ srcs, w.files f = none) :
    (compareStep E t w srcs G).1 = (false, none) := by
  obtain ⟨f, hf, hnone⟩ := h
  cases hM : getMaxTime w G with
  | error err => rw [compareStep_stopped E t w (Or.inl ⟨err, hM⟩)]
  | ok M =>
    have hfs : f ∈ srcs := by
      rcases List.mem_append.mp hf with hfG | hfs
      · have : ∃ err, getMaxTimeFrom w zeroTime G = .error err :=
          (getMaxTimeFrom_error_iff w G zeroTime).mpr ⟨f, hfG, hnone⟩
        obtain ⟨err, he⟩ := this
        unfold getMaxTime at hM
        rw [hM] at he
        cases he
      · exact hfs
    by_cases hz : M = 0
    · rw [compareStep_stopped E t w (Or.inr (Or.inl (by rw [hM, hz])))]
    · rcases anyFileNewerThan_missing w srcs M ⟨f, hfs, hnone⟩ with hb | ⟨err, he⟩
      · rw [compareStep_completed E t w hM hz hb]
        rfl
      · rw [compareStep_stopped E t w (Or.inr (Or.inr ⟨M, err, hM, he⟩))]

end Status

namespace Status

end Status

namespace Status

/-- Either `IsUpToDate` returns `(false, nil)` before touching anything (no source
pattern, or a failed expansion), or both expansions succeed and it runs the comparison. -/
theorem IsUpToDate_cases (E : Externals) (t : Timestamp) (dCreate dNow : Nat) (w : World) :
    ((t.Sources = [] ∨ (∃ err, E.globs w t.Dir t.Sources = .error err) ∨
        ∃ err, E.globs w t.Dir t.Generates = .error err) ∧
      IsUpToDate E t dCreate dNow w = ((false, none), w)) ∨
    ∃ srcs gens, t.Sources ≠ [] ∧ E.globs w t.Dir t.Sources = .ok srcs ∧
      E.globs w t.Dir t.Generates = .ok gens ∧
      IsUpToDate E t dCreate dNow w =
        compareStep E t (comparisonWorld E t dCreate dNow w gens) srcs
          (generatedSet E t w gens) := by
  by_cases hS : t.Sources = []
  · exact Or.inl ⟨Or.inl hS, by simp [IsUpToDate, hS]⟩
  · have hlen : t.Sources.length ≠ 0 := by simpa [List.length_eq_zero] using hS
    cases hgs : E.globs w t.Dir t.Sources with
    | error err =>
      exact Or.inl ⟨Or.inr (Or.inl ⟨err, rfl⟩), by simp [IsUpToDate, hlen, hgs]⟩
    | ok srcs =>
      cases hgg : E.globs w t.Dir t.Generates with
      | error err =>
        exact Or.inl ⟨Or.inr (Or.inr ⟨err, rfl⟩), by simp [IsUpToDate, hlen, hgs, hgg]⟩
      | ok gens =>
        exact Or.inr ⟨srcs, gens, hS, rfl, rfl,
          IsUpToDate_eq_comparison E t dCreate dNow w hS hgs hgg⟩

end Status

namespace Status

/-- C4: in a dry run `IsUpToDate` performs no filesystem write: the file table
after the call is the one before it, whatever boolean is returned. -/
theorem isUpToDate_dry_no_write (E : Externals) (t : Timestamp) (dCreate dNow : Nat)
    (w : World) (hD : t.Dry = true) :
    (IsUpToDate E t dCreate dNow w).2.files = w.files := by
  rcases IsUpToDate_cases E t dCreate dNow w with ⟨_, hr⟩ | ⟨srcs, gens, _, _, _, hr⟩
  · rw [hr]
  · rw [hr, compareStep_dry E t _ srcs _ hD]
    exact comparisonWorld_files_of_no_create E t dCreate dNow w gens (Or.inl hD)

/-- C4 at the example task, with the sentinel absent and the outputs fresh: the
dry run answers true and the file table is unchanged, the sentinel still absent. -/
theorem isUpToDate_dry_no_write_witness :
    (IsUpToDate exE (exT true) 1 2 (mkWorld [("main.c", 10), ("main.o", 12)] 100)).2.files
      = (mkWorld [("main.c", 10), ("main.o", 12)] 100).files :=
  isUpToDate_dry_no_write exE (exT true) 1 2 (mkWorld [("main.c", 10), ("main.o", 12)] 100) rfl

/-- C5: `IsUpToDate` never propagates a failure.  Its error component is always
nil, and whenever an expansion fails or the stat of a generated or source file
fails when the comparison runs, the result is exactly `(false, nil)`. -/
theorem isUpToDate_swallows_failures (E : Externals) (t : Timestamp) (dCreate dNow : Nat)
    (w : World) :
    (IsUpToDate E t dCreate dNow w).1.2 = none ∧
    (FailureOccurs E t dCreate dNow w → (IsUpToDate E t dCreate dNow w).1 = (false, none)) := by
  constructor
  · rcases IsUpToDate_cases E t dCreate dNow w with ⟨_, hr⟩ | ⟨srcs, gens, _, _, _, hr⟩
    · rw [hr]
    · rw [hr]
      exact compareStep_error E t _ srcs _
  · intro hfail
    rcases IsUpToDate_cases E t dCreate dNow w with ⟨_, hr⟩ | ⟨srcs, gens, _, hgs, hgg, hr⟩
    · rw [hr]
    · rw [hr]
      rcases hfail with ⟨err, he⟩ | ⟨err, he⟩ | ⟨srcs1, gens1, hgs1, hgg1, f, hf, err, he⟩
      · rw [hgs] at he
        cases he
      · rw [hgg] at he
        cases he
      · rw [hgs] at hgs1
        rw [hgg] at hgg1
        have e1 : srcs = srcs1 := Except.ok.inj hgs1
        have e2 : gens = gens1 := Except.ok.inj hgg1
        subst e1
        subst e2
        apply compareStep_missing
        refine ⟨f, hf, ?_⟩
        cases hfile : (comparisonWorld E t dCreate dNow w gens).files f with
        | none => rfl
        | some m =>
          rw [stat_eq_ok hfile] at he
          cases he

/-- C5 at the example task with `main.c` missing: the stat of the source fails
in the comparison and the result is `(false, nil)`. -/
theorem isUpToDate_swallows_failures_witness :
    (IsUpToDate exE (exT false) 1 2 (mkWorld [("main.o", 5)] 100)).1 = (false, none) :=
  (isUpToDate_swallows_failures exE (exT false) 1 2 (mkWorld [("main.o", 5)] 100)).2
    (Or.inr (Or.inr ⟨["main.c"], ["main.o"], rfl, rfl, "main.c", by decide,
      "stat main.c: no such file or directory", rfl⟩))

/-- C6: with an empty `Sources` list `IsUpToDate` returns `(false, nil)`, and it
does so before touching any file. -/
theorem isUpToDate_no_sources (E : Externals) (t : Timestamp) (dCreate dNow : Nat)
    (w : World) (hS : t.Sources = []) :
    IsUpToDate E t dCreate dNow w = ((false, none), w) := by
  simp [IsUpToDate, hS]

/-- C6 at a task without sources whose output exists. -/
theorem isUpToDate_no_sources_witness :
    IsUpToDate exE { exT false with Sources := [] } 1 2 (mkWorld [("main.o", 5)] 100)
      = ((false, none), mkWorld [("main.o", 5)] 100) :=
  isUpToDate_no_sources exE { exT false with Sources := [] } 1 2 (mkWorld [("main.o", 5)] 100) rfl

end Status

namespace Status

/-- The result of `Value` once the expansion and every stat have succeeded. -/
theorem Value_of_ok (E : Externals) (t : Timestamp) (dNow : Nat) (w : World)
    {srcs : List String} {M : Time}
    (hgs : E.globs w t.Dir t.Sources = .ok srcs) (hM : getMaxTime w srcs = .ok M) :
    Value E t dNow w = (if M = 0 then Unix 0 0 else M, none) := by
  by_cases hz : M = 0
  · simp [Value, hgs, hM, IsZero, hz]
  · simp [Value, hgs, hM, IsZero, hz]

/-- When `M` is the maximum modification time among the files `fs`, `getMaxTime`
returns `M` if it lies after the zero time and the zero time otherwise. -/
theorem getMaxTime_of_IsMaxModTime (w : World) (fs : List String) (M : Time)
    (hM : IsMaxModTime w fs M) : getMaxTime w fs = .ok (max 0 M) := by
  obtain ⟨⟨f0, hf0, hf0M⟩, hall⟩ := hM
  have hex : ∀ f ∈ fs, ∃ m, w.files f = some m := fun f hf =>
    let ⟨m, hm, _⟩ := hall f hf
    ⟨m, hm⟩
  obtain ⟨M1, hM1, h0, hle, hwit⟩ := getMaxTimeFrom_ok w fs zeroTime hex
  have h1 : M ≤ M1 := hle f0 hf0 M hf0M
  have h2 : M1 ≤ max 0 M := by
    rcases hwit with h0 | ⟨f, hf, hfM⟩
    · rw [h0]
      exact le_max_left _ _
    · obtain ⟨m, hm, hmle⟩ := hall f hf
      rw [hfM] at hm
      rw [Option.some.inj hm]
      exact le_trans hmle (le_max_right _ _)
  unfold getMaxTime
  rw [hM1, le_antisymm h2 (max_le h0 h1)]

/-- A non-empty list of existing files has a maximum modification time. -/
theorem exists_IsMaxModTime (w : World) (fs : List String) (hne : fs ≠ [])
    (hex : ∀ f ∈ fs, ∃ m, w.files f = some m) : ∃ M, IsMaxModTime w fs M := by
  cases fs with
  | nil => exact absurd rfl hne
  | cons f0 rest =>
    obtain ⟨m0, hm0⟩ := hex f0 (List.mem_cons_self _ _)
    obtain ⟨M, _, h0, hle, hwit⟩ := getMaxTimeFrom_ok w rest m0
      (fun f hf => hex f (List.mem_cons_of_mem _ hf))
    refine ⟨M, ?_, ?_⟩
    · rcases hwit with hM | ⟨f, hf, hfM⟩
      · exact ⟨f0, List.mem_cons_self _ _, by rw [hm0, hM]⟩
      · exact ⟨f, List.mem_cons_of_mem _ hf, hfM⟩
    · intro f hf
      rcases List.mem_cons.mp hf with rfl | hf
      · exact ⟨m0, hm0, h0⟩
      · obtain ⟨m, hm⟩ := hex f (List.mem_cons_of_mem _ hf)
        exact ⟨m, hm, hle f hf m hm⟩

/-- C7, refuted as stated: a single source file whose modification time is the
zero time has maximum modification time `0`, yet `Value` returns Unix time 0;
and so it does for a single source file dated before the zero time. -/
theorem value_max_source_time_counterexample :
    (exE.globs (mkWorld [("main.c", 0)] 100) (exT false).Dir (exT false).Sources
        = .ok ["main.c"] ∧
      IsMaxModTime (mkWorld [("main.c", 0)] 100) ["main.c"] 0 ∧
      Value exE (exT false) 0 (mkWorld [("main.c", 0)] 100) = (Unix 0 0, none) ∧
      Unix 0 0 ≠ 0) ∧
    (exE.globs (mkWorld [("main.c", -5)] 100) (exT false).Dir (exT false).Sources
        = .ok ["main.c"] ∧
      IsMaxModTime (mkWorld [("main.c", -5)] 100) ["main.c"] (-5) ∧
      Value exE (exT false) 0 (mkWorld [("main.c", -5)] 100) = (Unix 0 0, none) ∧
      Unix 0 0 ≠ -5) := by
  refine ⟨⟨rfl, ⟨⟨"main.c", by decide, by decide⟩, ?_⟩, by decide, by decide⟩,
    rfl, ⟨⟨"main.c", by decide, by decide⟩, ?_⟩, by decide, by decide⟩
  · intro f hf
    simp only [List.mem_singleton] at hf
    subst hf
    exact ⟨0, by decide, le_refl 0⟩
  · intro f hf
    simp only [List.mem_singleton] at hf
    subst hf
    exact ⟨-5, by decide, le_refl _⟩

/-- C7, amended: when the expansion of the sources succeeds and every source file
can be stat-ed, `Value` returns Unix time 0 with a nil error for an empty
expansion; for a non-empty one, with `M` the maximum modification time among
the source files, it returns `M` with a nil error when `M` lies after the zero
time and Unix time 0 with a nil error when no source file is dated after the
zero time; and the result is the same for every configuration and world with
the same expanded sources and the same source modification times, whatever the
generated outputs and the sentinel are. -/
theorem value_max_source_time (E : Externals) (t : Timestamp) (dNow : Nat) (w : World)
    (srcs : List String)
    (hgs : E.globs w t.Dir t.Sources = .ok srcs)
    (hex : ∀ s ∈ srcs, ∃ m, w.files s = some m) :
    (srcs = [] → Value E t dNow w = (Unix 0 0, none)) ∧
    (srcs ≠ [] → ∃ M, IsMaxModTime w srcs M ∧
      Value E t dNow w = (if M ≤ 0 then Unix 0 0 else M, none)) ∧
    (∀ (t2 : Timestamp) (dNow2 : Nat) (w2 : World),
      E.globs w2 t2.Dir t2.Sources = .ok srcs →
      (∀ s ∈ srcs, w2.files s = w.files s) →
      Value E t2 dNow2 w2 = Value E t dNow w) := by
  refine ⟨?_, ?_, ?_⟩
  · intro hnil
    subst hnil
    rw [Value_of_ok E t dNow w hgs (M := 0) rfl]
    rfl
  · intro hne
    obtain ⟨M, hM⟩ := exists_IsMaxModTime w srcs hne hex
    refine ⟨M, hM, ?_⟩
    rw [Value_of_ok E t dNow w hgs (getMaxTime_of_IsMaxModTime w srcs M hM)]
    by_cases hle : M ≤ 0
    · rw [if_pos hle, if_pos (max_eq_left hle)]
    · have hlt : 0 < M := not_le.mp hle
      rw [if_neg hle, max_eq_right (le_of_lt hlt), if_neg (ne_of_gt hlt)]
  · intro t2 dNow2 w2 hgs2 hsame
    obtain ⟨M, hM, _, _, _⟩ := getMaxTimeFrom_ok w srcs zeroTime hex
    have hM2 : getMaxTime w2 srcs = .ok M := by
      unfold getMaxTime
      rw [getMaxTimeFrom_congr srcs hsame]
      exact hM
    rw [Value_of_ok E t2 dNow2 w2 hgs2 hM2, Value_of_ok E t dNow w hgs hM]

/-- C7 amended, at the example task: `main.c` (time 10) and `util.c` (time 30) are
the sources; the answer is 30 and does not change when the outputs, the
sentinel, the clock and the other fields of the configuration do. -/
theorem value_max_source_time_witness :
    (["main.c", "util.c"] ≠ [] → ∃ M,
      IsMaxModTime (mkWorld [("main.c", 10), ("util.c", 30), ("main.o", 50)] 100)
        ["main.c", "util.c"] M ∧
      Value exE { exT false with Sources := ["main.c", "util.c"] } 0
        (mkWorld [("main.c", 10), ("util.c", 30), ("main.o", 50)] 100)
        = (if M ≤ 0 then Unix 0 0 else M, none)) ∧
    Value exE { exT true with Sources := ["main.c", "util.c"], Generates := [] } 7
        (mkWorld [("util.c", 30), ("main.c", 10), ("tmp/timestamp/build", 99)] 500)
      = Value exE { exT false with Sources := ["main.c", "util.c"] } 0
        (mkWorld [("main.c", 10), ("util.c", 30), ("main.o", 50)] 100) ∧
    Value exE { exT false with Sources := ["main.c", "util.c"] } 0
        (mkWorld [("main.c", 10), ("util.c", 30), ("main.o", 50)] 100) = (30, none) :=
  have h := value_max_source_time exE { exT false with Sources := ["main.c", "util.c"] } 0
    (mkWorld [("main.c", 10), ("util.c", 30), ("main.o", 50)] 100) ["main.c", "util.c"] rfl
    (by
      intro s hs
      simp only [List.mem_cons, List.mem_singleton, List.not_mem_nil, or_false] at hs
      rcases hs with rfl | rfl
      · exact ⟨10, by decide⟩
      · exact ⟨30, by decide⟩)
  ⟨h.2.1, h.2.2 { exT true with Sources := ["main.c", "util.c"], Generates := [] } 7
    (mkWorld [("util.c", 30), ("main.c", 10), ("tmp/timestamp/build", 99)] 500) rfl
    (by
      intro s hs
      simp only [List.mem_cons, List.mem_singleton, List.not_mem_nil, or_false] at hs
      rcases hs with rfl | rfl
      · decide
      · decide),
    by decide⟩

/-- The error component of `Value` is non-nil exactly when the expansion of the
sources fails or the stat of an expanded source file fails. -/
theorem Value_error_iff (E : Externals) (t : Timestamp) (dNow : Nat) (w : World) :
    (Value E t dNow w).2 ≠ none ↔
      ((∃ err, E.globs w t.Dir t.Sources = .error err) ∨
        ∃ srcs, E.globs w t.Dir t.Sources = .ok srcs ∧
          ∃ f ∈ srcs, ∃ err, stat w f = .error err) := by
  cases hgs : E.globs w t.Dir t.Sources with
  | error err => simp [Value, hgs]
  | ok srcs =>
    have hstat : (∃ f ∈ srcs, ∃ err, stat w f = .error err) ↔ ∃ f ∈ srcs, w.files f = none := by
      constructor
      · rintro ⟨f, hf, err, he⟩
        refine ⟨f, hf, ?_⟩
        cases hfile : w.files f with
        | none => rfl
        | some m =>
          rw [stat_eq_ok hfile] at he
          cases he
      · rintro ⟨f, hf, hnone⟩
        obtain ⟨err, he⟩ := stat_eq_error hnone
        exact ⟨f, hf, err, he⟩
    cases hM : getMaxTime w srcs with
    | error err =>
      have hmiss : ∃ f ∈ srcs, w.files f = none :=
        (getMaxTimeFrom_error_iff w srcs zeroTime).mp ⟨err, hM⟩
      have hl : (Value E t dNow w).2 ≠ none := by simp [Value, hgs, hM]
      simp only [hgs] at hl
      constructor
      · intro _
        exact Or.inr ⟨srcs, rfl, hstat.mpr hmiss⟩
      · intro _
        exact hl
    | ok M =>
      have hno : ¬ ∃ f ∈ srcs, w.files f = none := by
        intro hmiss
        obtain ⟨err, he⟩ := (getMaxTimeFrom_error_iff w srcs zeroTime).mpr hmiss
        unfold getMaxTime at hM
        rw [hM] at he
        cases he
      have hr : (Value E t dNow w).2 = none := by
        rw [Value_of_ok E t dNow w hgs hM]
      simp only [hgs] at hr
      constructor
      · intro hne
        exact absurd hr hne
      · rintro (⟨err, he⟩ | ⟨srcs1, hs1, hmiss⟩)
        · cases he
        · have e1 : srcs = srcs1 := Except.ok.inj hs1
          subst e1
          exact absurd (hstat.mp hmiss) hno

end Status

namespace Status

/-- C8, refuted as stated: the only expanded source of the example task is its
own sentinel path, which is missing.  `Value` returns an error, but
`IsUpToDate`, which is not a dry run, creates the sentinel before it compares
and returns `(true, nil)` because `main.o` carries a later time.  The same
happens when the missing source is the sentinel under another spelling, or
the directory of the sentinel, which `MkdirAll` makes. -/
theorem value_propagates_failures_counterexample :
    (exTSelf.Sources ≠ [] ∧
      exE.globs (mkWorld [("main.o", 1000)] 100) exTSelf.Dir exTSelf.Sources
        = .ok ["tmp/timestamp/build"] ∧
      (mkWorld [("main.o", 1000)] 100).files "tmp/timestamp/build" = none ∧
      (Value exE exTSelf 0 (mkWorld [("main.o", 1000)] 100)).2 ≠ none ∧
      (IsUpToDate exE exTSelf 1 2 (mkWorld [("main.o", 1000)] 100)).1 = (true, none)) ∧
    (exTAlias.Sources ≠ [] ∧
      exE.globs (mkWorld [("main.o", 1000)] 100) exTAlias.Dir exTAlias.Sources
        = .ok ["./tmp/timestamp/build"] ∧
      (mkWorld [("main.o", 1000)] 100).files "./tmp/timestamp/build" = none ∧
      (Value exE exTAlias 0 (mkWorld [("main.o", 1000)] 100)).2 ≠ none ∧
      (IsUpToDate exE exTAlias 1 2 (mkWorld [("main.o", 1000)] 100)).1 = (true, none)) ∧
    (exTDir.Sources ≠ [] ∧
      exE.globs (mkWorld [("main.o", 1000)] 100) exTDir.Dir exTDir.Sources
        = .ok ["tmp/timestamp"] ∧
      (mkWorld [("main.o", 1000)] 100).files "tmp/timestamp" = none ∧
      (Value exE exTDir 0 (mkWorld [("main.o", 1000)] 100)).2 ≠ none ∧
      (IsUpToDate exE exTDir 1 2 (mkWorld [("main.o", 1000)] 100)).1 = (true, none)) := by
  exact ⟨⟨by decide, rfl, by decide, by decide, by decide⟩,
    ⟨by decide, rfl, by decide, by decide, by decide⟩,
    by decide, rfl, by decide, by decide, by decide⟩

/-- C8, amended: `Value` returns a non-nil error exactly when the expansion of
the sources fails or the stat of an expanded source file fails; and for a
configuration with non-empty `Sources` in which an expanded source file is
missing and is still missing when `IsUpToDate` runs its comparison, `Value`
returns a non-nil error while `IsUpToDate` returns `(false, nil)`.  A missing
source file is still missing at the comparison in every dry run and whenever
the sentinel exists at the start, no file being created then. -/
theorem value_propagates_failures (E : Externals) (t : Timestamp) (dCreate dNow : Nat)
    (w : World) :
    ((Value E t dNow w).2 ≠ none ↔
      ((∃ err, E.globs w t.Dir t.Sources = .error err) ∨
        ∃ srcs, E.globs w t.Dir t.Sources = .ok srcs ∧
          ∃ f ∈ srcs, ∃ err, stat w f = .error err)) ∧
    (∀ srcs f, t.Sources ≠ [] → E.globs w t.Dir t.Sources = .ok srcs → f ∈ srcs →
      w.files f = none →
      (∀ gens, E.globs w t.Dir t.Generates = .ok gens →
        (comparisonWorld E t dCreate dNow w gens).files f = none) →
      (Value E t dNow w).2 ≠ none ∧ (IsUpToDate E t dCreate dNow w).1 = (false, none)) ∧
    (∀ gens f, w.files f = none →
      (t.Dry = true ∨ ∃ m, w.files (timestampFilePath E t) = some m) →
      (comparisonWorld E t dCreate dNow w gens).files f = none) := by
  refine ⟨Value_error_iff E t dNow w, ?_, ?_⟩
  · intro srcs f _ hgs hf hnone hmiss
    constructor
    · rw [Value_error_iff]
      obtain ⟨err, he⟩ := stat_eq_error hnone
      exact Or.inr ⟨srcs, hgs, f, hf, err, he⟩
    · rcases IsUpToDate_cases E t dCreate dNow w with ⟨_, hr⟩ | ⟨srcs1, gens, _, hgs1, hgg, hr⟩
      · rw [hr]
      · rw [hgs] at hgs1
        have e1 : srcs = srcs1 := Except.ok.inj hgs1
        subst e1
        rw [hr]
        exact compareStep_missing E t _ srcs _ ⟨f, List.mem_append_right _ hf, hmiss gens hgg⟩
  · intro gens f hnone hside
    rw [comparisonWorld_files_of_no_create E t dCreate dNow w gens hside]
    exact hnone

/-- C8 amended, at the example task with `main.c` missing and an existing sentinel. -/
theorem value_propagates_failures_witness :
    (Value exE (exT false) 0 (mkWorld [("main.o", 5), ("tmp/timestamp/build", 1)] 100)).2
      ≠ none ∧
    (IsUpToDate exE (exT false) 1 2
      (mkWorld [("main.o", 5), ("tmp/timestamp/build", 1)] 100)).1 = (false, none) :=
  (value_propagates_failures exE (exT false) 1 2
      (mkWorld [("main.o", 5), ("tmp/timestamp/build", 1)] 100)).2.1
    ["main.c"] "main.c" (by decide) rfl (by decide) (by decide)
    (fun gens _ =>
      (value_propagates_failures exE (exT false) 1 2
        (mkWorld [("main.o", 5), ("tmp/timestamp/build", 1)] 100)).2.2
        gens "main.c" (by decide) (Or.inr ⟨1, by decide⟩))

end Status

namespace Status

end Status

/-! ## Ordered variable model: auxiliary facts -/

namespace Taskfile

theorem Set_Keys_of_mem {vs : Vars} {key : String} (value : Var) (h : key ∈ vs.Keys) :
    (vs.Set key value).Keys = vs.Keys := by
  simp [Vars.Set, h]

theorem Set_Keys_of_not_mem {vs : Vars} {key : String} (value : Var) (h : key ∉ vs.Keys) :
    (vs.Set key value).Keys = vs.Keys ++ [key] := by
  simp [Vars.Set, h]

theorem Set_Mapping (vs : Vars) (key : String) (value : Var) (k : String) :
    (vs.Set key value).Mapping k = if k = key then some value else vs.Mapping k := rfl

theorem mem_Set_Keys (vs : Vars) (key : String) (value : Var) (k : String) :
    k ∈ (vs.Set key value).Keys ↔ k ∈ vs.Keys ∨ k = key := by
  by_cases h : key ∈ vs.Keys
  · rw [Set_Keys_of_mem value h]
    constructor
    · exact Or.inl
    · rintro (hk | rfl)
      · exact hk
      · exact h
  · rw [Set_Keys_of_not_mem value h]
    simp

theorem Inv_empty : Vars.empty.Inv := by
  constructor
  · exact List.nodup_nil
  · intro k
    simp [Vars.empty]

theorem Inv_Set {vs : Vars} (h : vs.Inv) (key : String) (value : Var) :
    (vs.Set key value).Inv := by
  obtain ⟨hnd, hkeys⟩ := h
  constructor
  · by_cases hk : key ∈ vs.Keys
    · rw [Set_Keys_of_mem value hk]
      exact hnd
    · rw [Set_Keys_of_not_mem value hk]
      exact List.Nodup.append hnd (List.nodup_singleton key) (by simpa using hk)
  · intro k
    rw [mem_Set_Keys, Set_Mapping]
    by_cases hk : k = key
    · simp [hk]
    · simp [hk, hkeys k]

/-- A visitor that never fails turns the loop of `Range` into a left fold. -/
theorem rangeLoop_total {σ : Type} (vs : Vars) (f : σ → String → Var → σ)
    (ks : List String) (s : σ) :
    rangeLoop vs (fun s k v => (f s k v, none)) ks s =
      (ks.foldl (fun s k => f s k (vs.index k)) s, none) := by
  induction ks generalizing s with
  | nil => rfl
  | cons k ks ih => simp [rangeLoop, ih]

/-- The receiver after the keys `ks` of `b` have been merged into `r`. -/
theorem Merge_eq_foldl (a b : Vars) :
    Merge (some a) (some b) =
      some (b.Keys.foldl (fun r k => r.Set k (b.index k)) a) := by
  simp [Merge, Range, rangeLoop_total b (fun (r : Vars) k v => r.Set k v)]

theorem foldl_Set_Keys (b : Vars) (ks : List String) (hnd : ks.Nodup) (r : Vars) :
    (ks.foldl (fun r k => r.Set k (b.index k)) r).Keys =
      r.Keys ++ ks.filter (fun k => decide (k ∉ r.Keys)) := by
  induction ks generalizing r with
  | nil => simp
  | cons k ks ih =>
    obtain ⟨hk, hnd1⟩ := List.nodup_cons.mp hnd
    rw [List.foldl_cons, ih hnd1]
    by_cases hmem : k ∈ r.Keys
    · rw [Set_Keys_of_mem _ hmem]
      simp [List.filter_cons, hmem]
    · rw [Set_Keys_of_not_mem _ hmem]
      have hfil : ks.filter (fun x => decide (x ∉ r.Keys ++ [k])) =
          ks.filter (fun x => decide (x ∉ r.Keys)) := by
        apply List.filter_congr
        intro x hx
        have hxk : x ≠ k := fun e => hk (e ▸ hx)
        simp [hxk]
      rw [hfil]
      simp [List.filter_cons, hmem]

theorem foldl_Set_Mapping (b : Vars) (ks : List String) (r : Vars) (k : String) :
    (ks.foldl (fun r k => r.Set k (b.index k)) r).Mapping k =
      if k ∈ ks then some (b.index k) else r.Mapping k := by
  induction ks generalizing r with
  | nil => simp
  | cons x ks ih =>
    rw [List.foldl_cons, ih]
    by_cases hk : k ∈ ks
    · simp [hk]
    · by_cases hx : k = x
      · simp [hk, hx, Set_Mapping]
      · simp [hk, hx, Set_Mapping]

/-- Under the invariant a map read at a listed key returns the stored entry. -/
theorem index_of_mem {b : Vars} (hb : b.Inv) {k : String} (hk : k ∈ b.Keys) :
    some (b.index k) = b.Mapping k := by
  have hsome := (hb.2 k).mp hk
  cases hm : b.Mapping k with
  | none => rw [hm] at hsome; cases hsome
  | some v => simp [Vars.index, hm]

end Taskfile

/-! ## Ordered variable model: verified properties -/

namespace Taskfile

/-- C9: sticky-order merge.  For a non-nil receiver `a` and an argument `b`
satisfying the invariant, after `a.Merge(b)` the key sequence is that of `a`
followed by the keys of `b` that were not in `a`, in the order of `b`; every key
of `b` carries the value of `b`, and every other key keeps the value it had in
`a`.  A nil argument leaves the receiver as it is. -/
theorem merge_sticky_order (a b : Vars) (ha : a.Inv) (hb : b.Inv) :
    (∃ r, Merge (some a) (some b) = some r ∧ r.Inv ∧
      r.Keys = a.Keys ++ b.Keys.filter (fun k => decide (k ∉ a.Keys)) ∧
      (∀ k ∈ b.Keys, r.Mapping k = b.Mapping k) ∧
      (∀ k, k ∉ b.Keys → r.Mapping k = a.Mapping k)) ∧
    Merge (some a) none = some a := by
  refine ⟨⟨_, Merge_eq_foldl a b, ?_, foldl_Set_Keys b b.Keys hb.1 a, ?_, ?_⟩, rfl⟩
  · have hgen : ∀ (ks : List String) (r : Vars), r.Inv →
        (ks.foldl (fun r k => r.Set k (b.index k)) r).Inv := by
      intro ks
      induction ks with
      | nil => intro r hr; exact hr
      | cons k ks ih => intro r hr; exact ih _ (Inv_Set hr k _)
    exact hgen b.Keys a ha
  · intro k hk
    rw [foldl_Set_Mapping, if_pos hk]
    exact index_of_mem hb hk
  · intro k hk
    rw [foldl_Set_Mapping, if_neg hk]

end Taskfile

namespace Taskfile

/-- C9 at the example of the specification: names `x`, `y` merged with names
`y`, `z` give the order `x`, `y`, `z`, the value of `y` coming from the argument. -/
theorem merge_sticky_order_witness :
    ∃ r, Merge (some exA) (some exB) = some r ∧ r.Keys = ["x", "y", "z"] ∧
      r.Mapping "y" = some (lit "by") ∧ r.Mapping "z" = some (lit "bz") ∧
      r.Mapping "x" = some (lit "ax") := by
  obtain ⟨r, hr, _, hkeys, hb, ha⟩ :=
    (merge_sticky_order exA exB
      (Inv_Set (Inv_Set Inv_empty "x" (lit "ax")) "y" (lit "ay"))
      (Inv_Set (Inv_Set Inv_empty "y" (lit "by")) "z" (lit "bz"))).1
  refine ⟨r, hr, ?_, ?_, ?_, ?_⟩
  · rw [hkeys]
    decide
  · rw [hb "y" (by decide)]
    rfl
  · rw [hb "z" (by decide)]
    rfl
  · rw [ha "x" (by decide)]
    rfl

/-- The visits of `Range` with the recording visitor on a non-nil receiver. -/
theorem Range_recordVisit (vs : Vars) :
    Range (some vs) recordVisit [] = (vs.Keys.map (fun k => (k, vs.index k)), none) := by
  have hloop : ∀ (ks : List String) (log : List (String × Var)),
      rangeLoop vs recordVisit ks log = (log ++ ks.map (fun k => (k, vs.index k)), none) := by
    intro ks
    induction ks with
    | nil => intro log; simp [rangeLoop]
    | cons k ks ih => intro log; simp [rangeLoop, recordVisit, ih]
  simpa [Range] using hloop vs.Keys []

theorem applySets_append (vs : Vars) (ops : List (String × Var)) (p : String × Var) :
    applySets vs (ops ++ [p]) = (applySets vs ops).Set p.1 p.2 := by
  simp [applySets, List.foldl_append]

theorem applySets_cons (vs : Vars) (p : String × Var) (ops : List (String × Var)) :
    applySets vs (p :: ops) = applySets (vs.Set p.1 p.2) ops := rfl

/-- No call names `k` exactly when `k` is none of the names passed. -/
theorem lastSet_eq_none_iff (ops : List (String × Var)) (k : String) :
    lastSet ops k = none ↔ k ∉ ops.map Prod.fst := by
  induction ops with
  | nil => simp [lastSet]
  | cons p ops ih =>
    obtain ⟨n, v⟩ := p
    cases hl : lastSet ops k with
    | some v1 =>
      have : k ∈ ops.map Prod.fst := by
        by_contra hnot
        rw [ih.mpr hnot] at hl
        cases hl
      simp [lastSet, hl, this]
    | none =>
      have hnot : k ∉ ops.map Prod.fst := ih.mp hl
      by_cases hn : n = k
      · simp [lastSet, hl, hn]
      · have hkn : ¬ k = n := fun e => hn e.symm
        simp only [List.map_cons, List.mem_cons, not_or]
        simp [lastSet, hl, hn, hkn, hnot]

/-- After a sequence of `Set` calls a key holds the value of the last call that
names it, or what it held before when no call names it. -/
theorem applySets_Mapping (ops : List (String × Var)) (vs : Vars) (k : String) :
    (applySets vs ops).Mapping k =
      match lastSet ops k with
      | some v => some v
      | none => vs.Mapping k := by
  induction ops generalizing vs with
  | nil => rfl
  | cons p ops ih =>
    obtain ⟨n, v⟩ := p
    rw [applySets_cons, ih]
    cases hl : lastSet ops k with
    | some v1 => simp [lastSet, hl]
    | none =>
      by_cases hn : n = k
      · simp [lastSet, hl, hn, Set_Mapping]
      · have hkn : ¬ k = n := fun e => hn e.symm
        simp [lastSet, hl, hn, hkn, Set_Mapping]

/-- The key sequence built by `Set` calls on the empty `Vars` lists the names
passed, in the order of their first occurrence. -/
theorem applySets_Keys (ops : List (String × Var)) :
    (∀ k, k ∈ (applySets Vars.empty ops).Keys ↔ k ∈ ops.map Prod.fst) ∧
    (applySets Vars.empty ops).Keys.Pairwise
      (fun k1 k2 => (ops.map Prod.fst).indexOf k1 < (ops.map Prod.fst).indexOf k2) := by
  induction ops using List.reverseRecOn with
  | nil => simp [applySets, Vars.empty]
  | append_singleton ops p ih =>
    obtain ⟨hmem, hpw⟩ := ih
    rw [applySets_append]
    have hmem2 : ∀ k, k ∈ ((applySets Vars.empty ops).Set p.1 p.2).Keys ↔
        k ∈ (ops ++ [p]).map Prod.fst := by
      intro k
      rw [mem_Set_Keys, hmem]
      simp
    refine ⟨hmem2, ?_⟩
    have hold : (applySets Vars.empty ops).Keys.Pairwise
        (fun k1 k2 => ((ops ++ [p]).map Prod.fst).indexOf k1 <
          ((ops ++ [p]).map Prod.fst).indexOf k2) := by
      refine List.Pairwise.imp_of_mem ?_ hpw
      intro k1 k2 h1 h2 hlt
      rw [List.map_append, List.indexOf_append_of_mem ((hmem k1).mp h1),
        List.indexOf_append_of_mem ((hmem k2).mp h2)]
      exact hlt
    by_cases hp : p.1 ∈ (applySets Vars.empty ops).Keys
    · rw [Set_Keys_of_mem _ hp]
      exact hold
    · rw [Set_Keys_of_not_mem _ hp]
      rw [List.pairwise_append]
      refine ⟨hold, List.pairwise_singleton _ _, ?_⟩
      intro k1 h1 k2 h2
      simp only [List.mem_singleton] at h2
      subst h2
      have hp2 : p.1 ∉ ops.map Prod.fst := fun h => hp ((hmem p.1).mpr h)
      rw [List.map_append, List.indexOf_append_of_mem ((hmem k1).mp h1),
        List.indexOf_append_of_not_mem hp2]
      exact Nat.lt_add_right _ (List.indexOf_lt_length.mpr ((hmem k1).mp h1))

/-- C10: for every sequence of `Set` calls applied to an initially empty `Vars`,
`Len` returns the number of distinct names in the sequence, and `Range` returns
nil after visiting exactly those names, each once, in the order of their first
occurrence, passing for each name the value of the last `Set` call for it. -/
theorem sets_len_and_range (ops : List (String × Var)) :
    Len (some (applySets Vars.empty ops)) = (ops.map Prod.fst).toFinset.card ∧
    (Range (some (applySets Vars.empty ops)) recordVisit []).2 = none ∧
    (∀ k, k ∈ (Range (some (applySets Vars.empty ops)) recordVisit []).1.map Prod.fst ↔
      k ∈ ops.map Prod.fst) ∧
    ((Range (some (applySets Vars.empty ops)) recordVisit []).1.map Prod.fst).Nodup ∧
    ((Range (some (applySets Vars.empty ops)) recordVisit []).1.map Prod.fst).Pairwise
      (fun k1 k2 => (ops.map Prod.fst).indexOf k1 < (ops.map Prod.fst).indexOf k2) ∧
    (∀ p ∈ (Range (some (applySets Vars.empty ops)) recordVisit []).1,
      lastSet ops p.1 = some p.2) := by
  obtain ⟨hmem, hpw⟩ := applySets_Keys ops
  have hnd : (applySets Vars.empty ops).Keys.Nodup :=
    hpw.imp (fun {a b} (h : _ < _) => fun e => by rw [e] at h; exact lt_irrefl _ h)
  have hvis : (Range (some (applySets Vars.empty ops)) recordVisit []).1.map Prod.fst =
      (applySets Vars.empty ops).Keys := by
    rw [Range_recordVisit]
    simp [List.map_map, Function.comp_def]
  rw [hvis]
  refine ⟨?_, ?_, hmem, hnd, hpw, ?_⟩
  · show (applySets Vars.empty ops).Keys.length = _
    rw [← List.toFinset_card_of_nodup hnd, List.toFinset.ext hmem]
  · rw [Range_recordVisit]
  · intro p hp
    rw [Range_recordVisit] at hp
    obtain ⟨k, hk, rfl⟩ := List.mem_map.mp hp
    have hin : k ∈ ops.map Prod.fst := (hmem k).mp hk
    have hmap := applySets_Mapping ops Vars.empty k
    cases hl : lastSet ops k with
    | none => exact absurd hin ((lastSet_eq_none_iff ops k).mp hl)
    | some v =>
      rw [hl] at hmap
      simp [Vars.index, hmap]

end Taskfile

namespace Taskfile

/-- A fold of `Set` calls keeps the invariant. -/
theorem Inv_foldl_Set (b : Vars) (ks : List String) (r : Vars) (hr : r.Inv) :
    (ks.foldl (fun r k => r.Set k (b.index k)) r).Inv := by
  induction ks generalizing r with
  | nil => exact hr
  | cons k ks ih => exact ih _ (Inv_Set hr k _)

/-- C11: the invariant of `Vars` (the key sequence lists each name once and its
names are exactly the keys of the mapping) holds for the empty `Vars` and is
preserved by `Set` and by `Merge`, with a non-nil or a nil argument. -/
theorem inv_preserved (vs other : Vars) (name : String) (value : Var)
    (hvs : vs.Inv) (_hother : other.Inv) :
    Vars.empty.Inv ∧
    (vs.Set name value).Inv ∧
    (∃ r, Merge (some vs) (some other) = some r ∧ r.Inv) ∧
    (∃ r, Merge (some vs) none = some r ∧ r.Inv) := by
  refine ⟨Inv_empty, Inv_Set hvs name value, ⟨_, Merge_eq_foldl vs other, ?_⟩, ⟨vs, rfl, hvs⟩⟩
  exact Inv_foldl_Set other other.Keys vs hvs

/-- C11 at the example values: names `x`, `y` receive `w` and are merged with
names `y`, `z`. -/
theorem inv_preserved_witness :
    Vars.empty.Inv ∧
    (exA.Set "w" (lit "aw")).Inv ∧
    (∃ r, Merge (some exA) (some exB) = some r ∧ r.Inv) ∧
    (∃ r, Merge (some exA) none = some r ∧ r.Inv) :=
  inv_preserved exA exB "w" (lit "aw")
    (Inv_Set (Inv_Set Inv_empty "x" (lit "ax")) "y" (lit "ay"))
    (Inv_Set (Inv_Set Inv_empty "y" (lit "by")) "z" (lit "bz"))

end Taskfile

namespace Taskfile

/-- The map built by `ToCacheMap` on a non-nil receiver, as a left fold over the keys. -/
theorem ToCacheMap_eq_foldl (vs : Vars) :
    ToCacheMap (some vs) =
      vs.Keys.foldl
        (fun (m : String → Option Dyn) k =>
          if (vs.index k).Sh ≠ "" then m
          else fun x => if x = k then some (cacheValue (vs.index k)) else m x)
        (fun _ => none) := by
  have hvis :
      (fun (m : String → Option Dyn) (k : String) (v : Var) =>
        if v.Sh ≠ "" then (m, (none : Option Error))
        else
          match v.Live with
          | some live => (fun x => if x = k then some live else m x, none)
          | none => (fun x => if x = k then some (Dyn.str v.Static) else m x, none)) =
      (fun (m : String → Option Dyn) (k : String) (v : Var) =>
        ((if v.Sh ≠ "" then m
          else fun x => if x = k then some (cacheValue v) else m x), (none : Option Error))) := by
    funext m k v
    by_cases hsh : v.Sh ≠ ""
    · rw [if_pos hsh, if_pos hsh]
    · rw [if_neg hsh, if_neg hsh]
      unfold cacheValue
      cases v.Live <;> rfl
  unfold ToCacheMap Range
  simp only [hvis]
  rw [rangeLoop_total vs
    (fun (m : String → Option Dyn) k v =>
      if v.Sh ≠ "" then m else fun x => if x = k then some (cacheValue v) else m x)]

theorem foldl_cache (vs : Vars) (ks : List String) (m : String → Option Dyn) (x : String) :
    (ks.foldl
        (fun (m : String → Option Dyn) k =>
          if (vs.index k).Sh ≠ "" then m
          else fun x => if x = k then some (cacheValue (vs.index k)) else m x)
        m) x =
      if x ∈ ks ∧ (vs.index x).Sh = "" then some (cacheValue (vs.index x)) else m x := by
  induction ks generalizing m with
  | nil => simp
  | cons k ks ih =>
    rw [List.foldl_cons, ih]
    by_cases hx : x ∈ ks ∧ (vs.index x).Sh = ""
    · have hx2 : x ∈ k :: ks ∧ (vs.index x).Sh = "" := ⟨List.mem_cons_of_mem k hx.1, hx.2⟩
      rw [if_pos hx, if_pos hx2]
    · rw [if_neg hx]
      by_cases hk : x = k
      · subst hk
        by_cases hsh : (vs.index x).Sh = ""
        · simp [hsh]
        · simp [hsh]
      · have hx3 : ¬ (x ∈ k :: ks ∧ (vs.index x).Sh = "") := by
          rintro ⟨hmem, hsh⟩
          rcases List.mem_cons.mp hmem with h | h
          · exact hk h
          · exact hx ⟨h, hsh⟩
        rw [if_neg hx3]
        by_cases hsh : (vs.index k).Sh = ""
        · simp [hsh, hk]
        · simp [hsh]

/-- The entry `ToCacheMap` holds for a name. -/
theorem ToCacheMap_apply (vs : Vars) (x : String) :
    ToCacheMap (some vs) x =
      if x ∈ vs.Keys ∧ (vs.index x).Sh = "" then some (cacheValue (vs.index x)) else none := by
  rw [ToCacheMap_eq_foldl, foldl_cache]

/-- C12: for a `Vars` satisfying the invariant, the keys of the map returned by
`ToCacheMap` are exactly the names whose `Var` has an empty `Sh`; such a name is
mapped to the `Live` of its `Var` when that is non-nil, whatever `Static` is,
and to its `Static` otherwise; a name whose `Var` has a non-empty `Sh` is absent. -/
theorem toCacheMap_spec (vs : Vars) (hvs : vs.Inv) :
    (∀ k, (ToCacheMap (some vs) k).isSome = true ↔ ∃ var, vs.Mapping k = some var ∧ var.Sh = "") ∧
    (∀ k var live, vs.Mapping k = some var → var.Sh = "" → var.Live = some live →
      ToCacheMap (some vs) k = some live) ∧
    (∀ k var, vs.Mapping k = some var → var.Sh = "" → var.Live = none →
      ToCacheMap (some vs) k = some (Dyn.str var.Static)) ∧
    (∀ k var, vs.Mapping k = some var → var.Sh ≠ "" → ToCacheMap (some vs) k = none) := by
  have hidx : ∀ k var, vs.Mapping k = some var → k ∈ vs.Keys ∧ vs.index k = var := by
    intro k var h
    exact ⟨(hvs.2 k).mpr (by simp [h]), by simp [Vars.index, h]⟩
  refine ⟨?_, ?_, ?_, ?_⟩
  · intro k
    rw [ToCacheMap_apply]
    constructor
    · intro h
      by_cases hc : k ∈ vs.Keys ∧ (vs.index k).Sh = ""
      · have hsome := (hvs.2 k).mp hc.1
        cases hm : vs.Mapping k with
        | none => rw [hm] at hsome; cases hsome
        | some var =>
          refine ⟨var, rfl, ?_⟩
          rw [← (hidx k var hm).2]
          exact hc.2
      · rw [if_neg hc] at h
        cases h
    · rintro ⟨var, hm, hsh⟩
      obtain ⟨hmem, hi⟩ := hidx k var hm
      rw [if_pos ⟨hmem, by rw [hi]; exact hsh⟩]
      rfl
  · intro k var live hm hsh hlive
    obtain ⟨hmem, hi⟩ := hidx k var hm
    rw [ToCacheMap_apply, if_pos ⟨hmem, by rw [hi]; exact hsh⟩, hi]
    simp [cacheValue, hlive]
  · intro k var hm hsh hlive
    obtain ⟨hmem, hi⟩ := hidx k var hm
    rw [ToCacheMap_apply, if_pos ⟨hmem, by rw [hi]; exact hsh⟩, hi]
    simp [cacheValue, hlive]
  · intro k var hm hsh
    obtain ⟨_, hi⟩ := hidx k var hm
    rw [ToCacheMap_apply, if_neg (by rw [hi]; exact fun h => hsh h.2)]

/-- C12 at an example: `a` is a literal, `b` is deferred (non-empty `Sh`, with a
`Static` set), `c` has both `Live` and `Static`. -/
theorem toCacheMap_spec_witness :
    ToCacheMap (some exC) "c" = some (Dyn.int 7) ∧
    ToCacheMap (some exC) "a" = some (Dyn.str "1") ∧
    ToCacheMap (some exC) "b" = none :=
  have h := toCacheMap_spec exC
    (Inv_Set (Inv_Set (Inv_Set Inv_empty "a" _) "b" _) "c" _)
  ⟨h.2.1 "c" { Static := "old", Live := some (Dyn.int 7), Sh := "", Dir := "" } (Dyn.int 7)
      rfl rfl rfl,
    h.2.2.1 "a" (lit "1") rfl rfl rfl,
    h.2.2.2 "b" { Static := "s", Live := none, Sh := "echo b", Dir := "" } rfl (by decide)⟩

end Taskfile

namespace Taskfile

theorem rangeLoop_cons_some {σ : Type} (vs : Vars) (yield : σ → String → Var → σ × Option Error)
    (k : String) (ks : List String) (s s1 : σ) (err : Error)
    (h : yield s k (vs.index k) = (s1, some err)) :
    rangeLoop vs yield (k :: ks) s = (s1, some err) := by
  simp [rangeLoop, h]

theorem rangeLoop_cons_none {σ : Type} (vs : Vars) (yield : σ → String → Var → σ × Option Error)
    (k : String) (ks : List String) (s s1 : σ)
    (h : yield s k (vs.index k) = (s1, none)) :
    rangeLoop vs yield (k :: ks) s = rangeLoop vs yield ks s1 := by
  simp [rangeLoop, h]

/-- The calls made by the loop of `Range`: the recorded entries are an initial
segment of the keys, only the last recorded call can have failed, and the
recording does not change what the loop computes. -/
theorem rangeLoop_logVisits {σ : Type} (vs : Vars) (yield : σ → String → Var → σ × Option Error)
    (ks : List String) (s : σ) (log : List (String × Var × Option Error)) :
    ∃ recs, (rangeLoop vs (logVisits yield) ks (s, log)).1.2 = log ++ recs ∧
      recs.map (fun r => (r.1, r.2.1)) = (ks.take recs.length).map (fun k => (k, vs.index k)) ∧
      recs.length ≤ ks.length ∧
      (∀ r ∈ recs.dropLast, r.2.2 = none) ∧
      ((rangeLoop vs (logVisits yield) ks (s, log)).2 = none →
        recs.length = ks.length ∧ ∀ r ∈ recs, r.2.2 = none) ∧
      (∀ e, (rangeLoop vs (logVisits yield) ks (s, log)).2 = some e →
        ∃ r, recs.getLast? = some r ∧ r.2.2 = some e) ∧
      rangeLoop vs yield ks s =
        ((rangeLoop vs (logVisits yield) ks (s, log)).1.1,
          (rangeLoop vs (logVisits yield) ks (s, log)).2) := by
  induction ks generalizing s log with
  | nil => exact ⟨[], by simp [rangeLoop]⟩
  | cons k ks ih =>
    cases hy : yield s k (vs.index k) with
    | mk s1 r =>
      cases r with
      | some err =>
        have hl : logVisits yield (s, log) k (vs.index k) =
            ((s1, log ++ [(k, vs.index k, some err)]), some err) := by
          simp [logVisits, hy]
        rw [rangeLoop_cons_some vs (logVisits yield) k ks _ _ err hl,
          rangeLoop_cons_some vs yield k ks _ _ err hy]
        refine ⟨[(k, vs.index k, some err)], rfl, by simp, by simp, by simp, ?_, ?_, rfl⟩
        · intro h
          cases h
        · intro e he
          exact ⟨(k, vs.index k, some err), rfl, he⟩
      | none =>
        have hl : logVisits yield (s, log) k (vs.index k) =
            ((s1, log ++ [(k, vs.index k, none)]), none) := by
          simp [logVisits, hy]
        rw [rangeLoop_cons_none vs (logVisits yield) k ks _ _ hl,
          rangeLoop_cons_none vs yield k ks _ _ hy]
        obtain ⟨recs, hlog, hmap, hlen, hdrop, hnone, hsome, hsame⟩ :=
          ih s1 (log ++ [(k, vs.index k, none)])
        refine ⟨(k, vs.index k, none) :: recs, ?_, ?_, ?_, ?_, ?_, ?_, hsame⟩
        · rw [hlog]
          simp
        · simp only [List.map_cons, List.length_cons, List.take_succ_cons]
          rw [hmap]
        · simp only [List.length_cons]
          exact Nat.succ_le_succ hlen
        · intro r hr
          cases recs with
          | nil => simp at hr
          | cons r1 rs =>
            rw [List.dropLast_cons₂] at hr
            rcases List.mem_cons.mp hr with h | h
            · rw [h]
            · exact hdrop r h
        · intro h
          obtain ⟨h1, h2⟩ := hnone h
          refine ⟨by simp [h1], ?_⟩
          intro r hr
          rcases List.mem_cons.mp hr with h3 | h3
          · rw [h3]
          · exact h2 r h3
        · intro e he
          obtain ⟨r, hr, hre⟩ := hsome e he
          refine ⟨r, ?_, hre⟩
          cases recs with
          | nil => simp at hr
          | cons r1 rs =>
            rw [List.getLast?_cons_cons]
            exact hr

end Taskfile

namespace Taskfile

/-- C13: `Range` calls the visitor on the entries in the order of `Keys`.  The
names of the calls recorded are an initial segment of `Keys`, each call made
once, and every call receives the `Var` that `Mapping` holds for its name (the
zero `Var` when `Mapping` has no entry); every call but the last returned nil;
when `Range` returns nil every key was visited and every call returned nil;
when it returns an error, that error was returned by the last call made, so no
entry after the first failing one is visited; and `Range` returns nil whenever
every call made returned nil. -/
theorem range_visits {σ : Type} (vs : Vars) (yield : σ → String → Var → σ × Option Error)
    (s : σ) :
    (Range (some vs) (logVisits yield) (s, [])).1.2.map (fun r => r.1) =
      vs.Keys.take (Range (some vs) (logVisits yield) (s, [])).1.2.length ∧
    (∀ r ∈ (Range (some vs) (logVisits yield) (s, [])).1.2,
      r.2.1 = match vs.Mapping r.1 with
        | some var => var
        | none => { Static := "", Live := none, Sh := "", Dir := "" }) ∧
    (∀ r ∈ (Range (some vs) (logVisits yield) (s, [])).1.2.dropLast, r.2.2 = none) ∧
    ((Range (some vs) (logVisits yield) (s, [])).2 = none →
      (Range (some vs) (logVisits yield) (s, [])).1.2.map (fun r => r.1) = vs.Keys ∧
      ∀ r ∈ (Range (some vs) (logVisits yield) (s, [])).1.2, r.2.2 = none) ∧
    (∀ e, (Range (some vs) (logVisits yield) (s, [])).2 = some e →
      ∃ r, (Range (some vs) (logVisits yield) (s, [])).1.2.getLast? = some r ∧ r.2.2 = some e) ∧
    ((∀ r ∈ (Range (some vs) (logVisits yield) (s, [])).1.2, r.2.2 = none) →
      (Range (some vs) (logVisits yield) (s, [])).2 = none) ∧
    Range (some vs) yield s =
      ((Range (some vs) (logVisits yield) (s, [])).1.1,
        (Range (some vs) (logVisits yield) (s, [])).2) := by
  obtain ⟨recs, hlog, hmap, hlen, hdrop, hnone, hsome, hsame⟩ :=
    rangeLoop_logVisits vs yield vs.Keys s []
  have hL : (Range (some vs) (logVisits yield) (s, [])).1.2 = recs := by
    simpa [Range] using hlog
  have hR : (Range (some vs) (logVisits yield) (s, [])).2 =
      (rangeLoop vs (logVisits yield) vs.Keys (s, [])).2 := rfl
  have hnames : recs.map (fun r => r.1) = vs.Keys.take recs.length := by
    have h1 := congrArg (List.map Prod.fst) hmap
    simp only [List.map_map] at h1
    have h2 : (List.map (Prod.fst ∘ fun k => (k, vs.index k)) (List.take recs.length vs.Keys))
        = List.take recs.length vs.Keys := by
      simp [Function.comp_def]
    rw [h2] at h1
    rw [← h1]
    simp [Function.comp_def]
  rw [hL, hR]
  refine ⟨hnames, ?_, hdrop, ?_, hsome, ?_, hsame⟩
  · intro r hr
    have hmem : (r.1, r.2.1) ∈ recs.map (fun r => (r.1, r.2.1)) :=
      List.mem_map.mpr ⟨r, hr, rfl⟩
    rw [hmap] at hmem
    obtain ⟨k, _, hk⟩ := List.mem_map.mp hmem
    have hk1 : k = r.1 := congrArg Prod.fst hk
    have hk2 : vs.index k = r.2.1 := congrArg Prod.snd hk
    rw [← hk2, hk1]
    unfold Vars.index
    cases vs.Mapping r.1 <;> rfl
  · intro h
    obtain ⟨h1, h2⟩ := hnone h
    refine ⟨?_, h2⟩
    rw [hnames, h1, List.take_length]
  · intro hall
    cases he : (rangeLoop vs (logVisits yield) vs.Keys (s, [])).2 with
    | none => rfl
    | some e =>
      obtain ⟨r, hr, hre⟩ := hsome e he
      have hmem : r ∈ recs := List.mem_of_getLast?_eq_some hr
      rw [hall r hmem] at hre
      cases hre

/-- C13 at an example: over the names `x`, `y`, `z` a visitor that fails on `y`
is called on `x` and `y` only, with the values stored for them, and its error
is what `Range` returns. -/
theorem range_visits_witness :
    (∃ r, (Range (some (exA.Set "z" (lit "az"))) (logVisits failOnY) (0, [])).1.2.getLast?
        = some r ∧ r.2.2 = some "stop at y") ∧
    (Range (some (exA.Set "z" (lit "az"))) (logVisits failOnY) (0, [])).1.2.map
        (fun r => (r.1, r.2.1.Static, r.2.1.Sh, r.2.2))
      = [("x", "ax", "", none), ("y", "ay", "", some "stop at y")] ∧
    (Range (some (exA.Set "z" (lit "az"))) failOnY 0) = (2, some "stop at y") :=
  ⟨(range_visits (exA.Set "z" (lit "az")) failOnY 0).2.2.2.2.1 "stop at y" (by decide),
    by decide, by decide⟩

/-- C15: a nil `Vars` behaves as an empty set.  On a nil receiver `Len` returns 0,
`Range` returns nil without calling the visitor, `ToCacheMap` returns an empty
map and `Merge` does nothing; and merging nil into a non-nil receiver leaves its
key sequence and mapping as they are. -/
theorem nil_vars_safe {σ : Type} (yield : σ → String → Var → σ × Option Error) (s : σ)
    (other : Option Vars) (vs : Vars) :
    Len none = 0 ∧
    Range none yield s = (s, none) ∧
    (Range none (logVisits yield) (s, [])).1.2 = [] ∧
    (∀ k, ToCacheMap none k = none) ∧
    Merge none other = none ∧
    Merge (some vs) none = some vs :=
  ⟨rfl, rfl, rfl, fun _ => rfl, rfl, rfl⟩

end Taskfile

namespace Taskfile

theorem exportName_values :
    exportName "live" = "Live" ∧ exportName "Live" = "Live" ∧
    exportName "static" = "Static" ∧ exportName "Static" = "Static" ∧
    exportName "sh" = "Sh" ∧ exportName "Sh" = "Sh" ∧
    exportName "dir" = "Dir" ∧ exportName "Dir" = "Dir" := by
  decide

/-- No value has the type of the field `Live`. -/
theorem typeOf_ne_iface (value : Dyn) : GoType.iface ≠ value.typeOf := by
  cases value <;> simp [Dyn.typeOf]

/-- C20: dynamic field assignment never accepts the attribute `Live`.  For every
`Var` and every non-nil value, `SetField` with the name `live` or `Live`
returns the type-mismatch error and leaves the `Var` as it is; with one of the
names `static`, `Static`, `sh`, `Sh`, `dir`, `Dir` and a string value it sets
that field to the value, leaves the other three fields as they are and returns nil. -/
theorem setField_fields (v : Var) (value : Dyn) (s : String) :
    SetField v "live" value = (v, some "Provided value type didn't match object field type") ∧
    SetField v "Live" value = (v, some "Provided value type didn't match object field type") ∧
    SetField v "static" (.str s) = ({ v with Static := s }, none) ∧
    SetField v "Static" (.str s) = ({ v with Static := s }, none) ∧
    SetField v "sh" (.str s) = ({ v with Sh := s }, none) ∧
    SetField v "Sh" (.str s) = ({ v with Sh := s }, none) ∧
    SetField v "dir" (.str s) = ({ v with Dir := s }, none) ∧
    SetField v "Dir" (.str s) = ({ v with Dir := s }, none) := by
  obtain ⟨h1, h2, h3, h4, h5, h6, h7, h8⟩ := exportName_values
  have hv := typeOf_ne_iface value
  refine ⟨?_, ?_, ?_, ?_, ?_, ?_, ?_, ?_⟩
  · simp [SetField, h1, FieldByName, Field.type, hv]
  · simp [SetField, h2, FieldByName, Field.type, hv]
  · simp [SetField, h3, FieldByName, Field.type, Dyn.typeOf, Var.assign]
  · simp [SetField, h4, FieldByName, Field.type, Dyn.typeOf, Var.assign]
  · simp [SetField, h5, FieldByName, Field.type, Dyn.typeOf, Var.assign]
  · simp [SetField, h6, FieldByName, Field.type, Dyn.typeOf, Var.assign]
  · simp [SetField, h7, FieldByName, Field.type, Dyn.typeOf, Var.assign]
  · simp [SetField, h8, FieldByName, Field.type, Dyn.typeOf, Var.assign]

/-- C16, evaluated on the code: decoding the map `FOO` to the nested map `sh` to
`echo hi` into an empty `Vars` returns nil and yields one variable, named `sh`
after the inner key, whose `Static` is the printed inner value and whose `Sh`
is empty; there is no variable `FOO`. -/
theorem unmarshalTOML_nested_names_inner (Sprintf : Dyn → String) :
    (UnmarshalTOML Sprintf Vars.empty
      (.table [("FOO", .table [("sh", .str "echo hi")])])).2 = none ∧
    (UnmarshalTOML Sprintf Vars.empty
      (.table [("FOO", .table [("sh", .str "echo hi")])])).1.Keys = ["sh"] ∧
    (UnmarshalTOML Sprintf Vars.empty
      (.table [("FOO", .table [("sh", .str "echo hi")])])).1.Mapping "FOO" = none ∧
    (UnmarshalTOML Sprintf Vars.empty
      (.table [("FOO", .table [("sh", .str "echo hi")])])).1.Mapping "sh"
      = some { Static := Sprintf (.str "echo hi"), Live := none, Sh := "", Dir := "" } := by
  refine ⟨rfl, rfl, ?_, ?_⟩
  · simp [UnmarshalTOML, tomlOuter, tomlInner, Vars.empty]
  · simp [UnmarshalTOML, tomlOuter, tomlInner, Vars.empty, Var.zero]

/-- C17, evaluated on the code: a nested map with the unknown inner key `bogus`,
and one whose key `sh` carries the integer 42, are both decoded without error;
each yields a variable named after the inner key with the printed value as
`Static`. -/
theorem unmarshalTOML_nested_not_rejected (Sprintf : Dyn → String) :
    (UnmarshalTOML Sprintf Vars.empty
      (.table [("FOO", .table [("bogus", .str "x")])])).2 = none ∧
    (UnmarshalTOML Sprintf Vars.empty
      (.table [("FOO", .table [("bogus", .str "x")])])).1.Keys = ["bogus"] ∧
    (UnmarshalTOML Sprintf Vars.empty
      (.table [("FOO", .table [("sh", .int 42)])])).2 = none ∧
    (UnmarshalTOML Sprintf Vars.empty
      (.table [("FOO", .table [("sh", .int 42)])])).1.Mapping "sh"
      = some { Static := Sprintf (.int 42), Live := none, Sh := "", Dir := "" } := by
  refine ⟨rfl, rfl, rfl, ?_⟩
  simp [UnmarshalTOML, tomlOuter, tomlInner, Vars.empty, Var.zero]

end Taskfile

namespace Taskfile

/-- The loop of `Vars.UnmarshalYAML` on a content of even length whose values all
decode: every pair is `Set`, in document order. -/
theorem yamlLoop_ok (D : Node → Var × Option Error) :
    ∀ (content : List Node) (vs : Vars), content.length % 2 = 0 →
      (∀ p ∈ contentPairs content, (D p.2).2 = none) →
      yamlLoop D content vs =
        some (applySets vs ((contentPairs content).map (fun p => (p.1.Value, (D p.2).1))), none)
  | [], vs, _, _ => rfl
  | [_], _, hlen, _ => by simp at hlen
  | k :: v :: rest, vs, hlen, hall => by
    have hv : (D v).2 = none := hall (k, v) (by simp [contentPairs])
    have hrest : ∀ p ∈ contentPairs rest, (D p.2).2 = none := fun p hp =>
      hall p (by simp [contentPairs, hp])
    have hlen2 : rest.length % 2 = 0 := by
      simp only [List.length_cons] at hlen
      omega
    have hD : D v = ((D v).1, none) := by rw [← hv]
    rw [yamlLoop, hD]
    simp only
    rw [yamlLoop_ok D rest _ hlen2 hrest]
    rfl

/-- The loop of `Vars.UnmarshalYAML` stops at the first value that fails to
decode, with the pairs before it `Set` and its error returned. -/
theorem yamlLoop_error (D : Node → Var × Option Error) (k v : Node) (post : List Node)
    (x : Var) (err : Error) (hv : D v = (x, some err)) :
    ∀ (pre : List Node) (vs : Vars), pre.length % 2 = 0 →
      (∀ p ∈ contentPairs pre, (D p.2).2 = none) →
      yamlLoop D (pre ++ k :: v :: post) vs =
        some (applySets vs ((contentPairs pre).map (fun p => (p.1.Value, (D p.2).1))), some err)
  | [], vs, _, _ => by simp [yamlLoop, hv, contentPairs, applySets]
  | [_], _, hlen, _ => by simp at hlen
  | k1 :: v1 :: rest, vs, hlen, hall => by
    have hv1 : (D v1).2 = none := hall (k1, v1) (by simp [contentPairs])
    have hrest : ∀ p ∈ contentPairs rest, (D p.2).2 = none := fun p hp =>
      hall p (by simp [contentPairs, hp])
    have hlen2 : rest.length % 2 = 0 := by
      simp only [List.length_cons] at hlen
      omega
    have hD : D v1 = ((D v1).1, none) := by rw [← hv1]
    rw [List.cons_append, List.cons_append, yamlLoop, hD]
    simp only
    rw [yamlLoop_error D k v post x err hv rest _ hlen2 hrest]
    rfl

end Taskfile

namespace Taskfile

/-- C18, refuted as stated: with the default behaviour of the library, the
mapping `foo` to `bar` and the two-key mapping `sh` to `echo`, `dir` to `x` are
decoded by `Var.UnmarshalYAML` without error although neither is a one-key
mapping with the key `sh`; the first yields the empty `Var`. -/
theorem var_unmarshalYAML_counterexample :
    (mappingNode [scalarNode "foo" 2, scalarNode "bar" 2] 2).Kind = .MappingNode ∧
    (Var.UnmarshalYAML exYaml Var.zero
      (mappingNode [scalarNode "foo" 2, scalarNode "bar" 2] 2)).2 = none ∧
    (Var.UnmarshalYAML exYaml Var.zero
      (mappingNode [scalarNode "foo" 2, scalarNode "bar" 2] 2)).1.Sh = "" ∧
    (Var.UnmarshalYAML exYaml Var.zero
      (mappingNode [scalarNode "foo" 2, scalarNode "bar" 2] 2)).1.Static = "" ∧
    (Var.UnmarshalYAML exYaml Var.zero
      (mappingNode [scalarNode "sh" 2, scalarNode "echo" 2,
        scalarNode "dir" 3, scalarNode "x" 3] 2)).2 = none ∧
    (Var.UnmarshalYAML exYaml Var.zero
      (mappingNode [scalarNode "sh" 2, scalarNode "echo" 2,
        scalarNode "dir" 3, scalarNode "x" 3] 2)).1.Sh = "echo" := by
  decide

/-- C18, amended.  `Var.UnmarshalYAML` on a fresh `Var`: a scalar node that the
library decodes to `s` yields `Static` equal to `s` and an empty `Sh`; a mapping
node that the library decodes into the one-field struct with `Sh` equal to `c`
yields `Sh` equal to `c` and an empty `Static`; a scalar or mapping node yields
an error exactly when that library call fails, so that a mapping is not
rejected for its keys; a node of any other kind, such as a sequence, yields the
error naming its line.  `Vars.UnmarshalYAML` returns an error for every
non-mapping node; on a mapping node of even content whose values all decode it
applies `Set` to the decoded pairs in document order and returns nil; and it
stops at the first value that fails to decode, returning its error. -/
theorem unmarshalYAML_shapes (L : YamlLib) (D : Node → Var × Option Error) :
    (∀ n s, n.Kind = .ScalarNode → L.DecodeString n = .ok s →
      Var.UnmarshalYAML L Var.zero n = ({ Static := s, Live := none, Sh := "", Dir := "" }, none)) ∧
    (∀ n c, n.Kind = .MappingNode → L.DecodeSh n = .ok c →
      Var.UnmarshalYAML L Var.zero n = ({ Static := "", Live := none, Sh := c, Dir := "" }, none)) ∧
    (∀ n, n.Kind = .ScalarNode →
      ((Var.UnmarshalYAML L Var.zero n).2 ≠ none ↔ ∃ err, L.DecodeString n = .error err)) ∧
    (∀ n, n.Kind = .MappingNode →
      ((Var.UnmarshalYAML L Var.zero n).2 ≠ none ↔ ∃ err, L.DecodeSh n = .error err)) ∧
    (∀ n, n.Kind ≠ .ScalarNode → n.Kind ≠ .MappingNode →
      Var.UnmarshalYAML L Var.zero n =
        (Var.zero, some ("yaml: line " ++ toString n.Line ++ ": cannot unmarshal " ++ n.ShortTag
          ++ " into variable"))) ∧
    (∀ vs n, n.Kind ≠ .MappingNode →
      Vars.UnmarshalYAML D vs n =
        some (vs, some ("yaml: line " ++ toString n.Line ++ ": cannot unmarshal " ++ n.ShortTag
          ++ " into variables"))) ∧
    (∀ vs n, n.Kind = .MappingNode → n.Content.length % 2 = 0 →
      (∀ p ∈ contentPairs n.Content, (D p.2).2 = none) →
      Vars.UnmarshalYAML D vs n =
        some (applySets vs ((contentPairs n.Content).map (fun p => (p.1.Value, (D p.2).1))),
          none)) ∧
    (∀ vs n pre k v post x err, n.Kind = .MappingNode → n.Content = pre ++ k :: v :: post →
      pre.length % 2 = 0 → (∀ p ∈ contentPairs pre, (D p.2).2 = none) →
      D v = (x, some err) →
      Vars.UnmarshalYAML D vs n =
        some (applySets vs ((contentPairs pre).map (fun p => (p.1.Value, (D p.2).1))),
          some err)) := by
  refine ⟨?_, ?_, ?_, ?_, ?_, ?_, ?_, ?_⟩
  · intro n s hk hs
    simp [Var.UnmarshalYAML, hk, hs, Var.zero]
  · intro n c hk hc
    simp [Var.UnmarshalYAML, hk, hc, Var.zero]
  · intro n hk
    cases hd : L.DecodeString n <;> simp [Var.UnmarshalYAML, hk, hd]
  · intro n hk
    cases hd : L.DecodeSh n <;> simp [Var.UnmarshalYAML, hk, hd]
  · intro n h1 h2
    unfold Var.UnmarshalYAML
    cases hk : n.Kind with
    | ScalarNode => exact absurd hk h1
    | MappingNode => exact absurd hk h2
    | DocumentNode => rfl
    | SequenceNode => rfl
    | AliasNode => rfl
  · intro vs n h
    unfold Vars.UnmarshalYAML
    cases hk : n.Kind with
    | MappingNode => exact absurd hk h
    | ScalarNode => rfl
    | DocumentNode => rfl
    | SequenceNode => rfl
    | AliasNode => rfl
  · intro vs n hk hlen hall
    simp only [Vars.UnmarshalYAML, hk]
    exact yamlLoop_ok D n.Content vs hlen hall
  · intro vs n pre k v post x err hk hc hlen hall hv
    simp only [Vars.UnmarshalYAML, hk, hc]
    exact yamlLoop_error D k v post x err hv pre vs hlen hall

/-- C18 amended, at examples with the default library behaviour: the scalar
`bar` gives `Static`; the mapping `sh` to `echo hi` gives `Sh`; a sequence is an
error; and the document `A: 1`, `B: {sh: date}`, `A: 2` sets `A`, `B`, `A` in
that order. -/
theorem unmarshalYAML_shapes_witness :
    Var.UnmarshalYAML exYaml Var.zero (scalarNode "bar" 1)
      = ({ Static := "bar", Live := none, Sh := "", Dir := "" }, none) ∧
    Var.UnmarshalYAML exYaml Var.zero
        (mappingNode [scalarNode "sh" 1, scalarNode "echo hi" 1] 1)
      = ({ Static := "", Live := none, Sh := "echo hi", Dir := "" }, none) ∧
    Var.UnmarshalYAML exYaml Var.zero (sequenceNode [scalarNode "a" 4] 4)
      = (Var.zero, some "yaml: line 4: cannot unmarshal !!seq into variable") ∧
    Vars.UnmarshalYAML (Node.DecodeVar exYaml) Vars.empty
        (mappingNode [scalarNode "A" 1, scalarNode "1" 1,
          scalarNode "B" 2, mappingNode [scalarNode "sh" 3, scalarNode "date" 3] 3,
          scalarNode "A" 4, scalarNode "2" 4] 1)
      = some (applySets Vars.empty
          [("A", lit "1"), ("B", { Static := "", Live := none, Sh := "date", Dir := "" }),
            ("A", lit "2")], none) :=
  have h := unmarshalYAML_shapes exYaml (Node.DecodeVar exYaml)
  ⟨h.1 (scalarNode "bar" 1) "bar" rfl rfl,
    h.2.1 (mappingNode [scalarNode "sh" 1, scalarNode "echo hi" 1] 1) "echo hi" rfl rfl,
    h.2.2.2.2.1 (sequenceNode [scalarNode "a" 4] 4) (by decide) (by decide),
    h.2.2.2.2.2.2.1 Vars.empty
      (mappingNode [scalarNode "A" 1, scalarNode "1" 1,
        scalarNode "B" 2, mappingNode [scalarNode "sh" 3, scalarNode "date" 3] 3,
        scalarNode "A" 4, scalarNode "2" 4] 1) rfl (by decide)
      (by
        intro p hp
        simp only [mappingNode, Node.Content, contentPairs, List.mem_cons, List.mem_singleton,
          List.not_mem_nil, or_false] at hp
        rcases hp with rfl | rfl | rfl <;> rfl)⟩

end Taskfile

/-! ## Ordered variable model in memory: auxiliary facts -/

namespace Taskfile

theorem keysIn_congr (o : VarsObj) (h h1 : Heap)
    (hs : ∀ s, o.Keys = some s → h1.arrays s.arr = h.arrays s.arr) :
    o.keysIn h1 = o.keysIn h := by
  unfold VarsObj.keysIn Heap.elems
  cases hk : o.Keys with
  | none => rfl
  | some s => simp only [hs s hk]

theorem mappingIn_congr (o : VarsObj) (h h1 : Heap)
    (hm : ∀ a, o.Mapping = some a → h1.maps a = h.maps a) :
    o.mappingIn h1 = o.mappingIn h := by
  unfold VarsObj.mappingIn
  cases hk : o.Mapping with
  | none => rfl
  | some a => exact hm a hk

theorem append_arrays_frame (h : Heap) (s : Option Slice) (x : String) (a : Nat)
    (ha : a < h.next) (hne : ∀ s1, s = some s1 → s1.arr ≠ a) :
    (h.append s x).1.arrays a = h.arrays a := by
  have hnext : a ≠ h.next := Nat.ne_of_lt ha
  cases s with
  | none => simp [Heap.append, hnext]
  | some s1 =>
    have h1 : a ≠ s1.arr := fun e => hne s1 rfl e.symm
    by_cases hcap : s1.len < (h.arrays s1.arr).length
    · simp [Heap.append, hcap, h1]
    · simp [Heap.append, hcap, hnext]

theorem append_maps (h : Heap) (s : Option Slice) (x : String) :
    (h.append s x).1.maps = h.maps := by
  cases s with
  | none => rfl
  | some s1 =>
    by_cases hcap : s1.len < (h.arrays s1.arr).length
    · simp [Heap.append, hcap]
    · simp [Heap.append, hcap]

/-- Method `Set` writes to no array other than the receiver's own and new ones. -/
theorem Set_arrays_frame (o : VarsObj) (h : Heap) (key : String) (value : Var) (a : Nat)
    (ha : a < h.next) (hne : ∀ s, o.Keys = some s → s.arr ≠ a) :
    (o.Set h key value).1.arrays a = h.arrays a := by
  have hr1 : ∀ (r1 : Heap × Nat), r1.1.arrays = h.arrays → h.next ≤ r1.1.next →
      (if (r1.1.elems o.Keys).contains key then (r1.1, o.Keys)
        else ((r1.1.append o.Keys key).1, some (r1.1.append o.Keys key).2)).1.arrays a
        = h.arrays a := by
    intro r1 harr hnext
    cases hc : (r1.1.elems o.Keys).contains key with
    | true => simp only [if_true, harr]
    | false =>
      simp only [Bool.false_eq_true, if_false]
      rw [append_arrays_frame r1.1 o.Keys key a (Nat.lt_of_lt_of_le ha hnext) hne, harr]
  unfold VarsObj.Set
  cases hm : o.Mapping with
  | none => exact hr1 h.makeMap rfl (Nat.le_succ _)
  | some a0 => exact hr1 (h, a0) rfl (Nat.le_refl _)

/-- Method `Set` writes to no map other than the receiver's own and new ones. -/
theorem Set_maps_frame (o : VarsObj) (h : Heap) (key : String) (value : Var) (a : Nat)
    (ha : a < h.next) (hne : o.Mapping ≠ some a) :
    (o.Set h key value).1.maps a = h.maps a := by
  have hnext : a ≠ h.next := Nat.ne_of_lt ha
  have hr1 : ∀ (r1 : Heap × Nat), r1.1.maps a = h.maps a → a ≠ r1.2 →
      ({ (if (r1.1.elems o.Keys).contains key then (r1.1, o.Keys)
            else ((r1.1.append o.Keys key).1, some (r1.1.append o.Keys key).2)).1 with
          maps := fun b =>
            if b = r1.2 then fun k =>
              if k = key then some value
              else (if (r1.1.elems o.Keys).contains key then (r1.1, o.Keys)
                else ((r1.1.append o.Keys key).1, some (r1.1.append o.Keys key).2)).1.maps r1.2 k
            else (if (r1.1.elems o.Keys).contains key then (r1.1, o.Keys)
              else ((r1.1.append o.Keys key).1, some (r1.1.append o.Keys key).2)).1.maps b
        } : Heap).maps a = h.maps a := by
    intro r1 hmap hne2
    cases hc : (r1.1.elems o.Keys).contains key with
    | true => simp only [if_true, if_neg hne2, hmap]
    | false =>
      simp only [Bool.false_eq_true, if_false, if_neg hne2]
      rw [append_maps]
      exact hmap
  unfold VarsObj.Set
  cases hm : o.Mapping with
  | none =>
    exact hr1 h.makeMap (by simp [Heap.makeMap, hnext]) hnext
  | some a0 =>
    have : a ≠ a0 := fun e => hne (by rw [hm, e])
    exact hr1 (h, a0) rfl this

end Taskfile

namespace Taskfile

/-- What `DeepCopy` does to the heap: it allocates, leaves every existing object
as it is, and returns a struct whose references are new and which holds the
key sequence and the mapping of the receiver. -/
theorem DeepCopy_facts (h : Heap) (o : VarsObj) :
    ∃ c, (DeepCopy h (some o)).2 = some c ∧
      h.next ≤ (DeepCopy h (some o)).1.next ∧
      (∀ a, a < h.next → (DeepCopy h (some o)).1.arrays a = h.arrays a) ∧
      (∀ a, a < h.next → (DeepCopy h (some o)).1.maps a = h.maps a) ∧
      (∀ s, c.Keys = some s → h.next ≤ s.arr ∧ s.arr < (DeepCopy h (some o)).1.next) ∧
      (∀ a, c.Mapping = some a → h.next ≤ a ∧ a < (DeepCopy h (some o)).1.next) ∧
      c.keysIn (DeepCopy h (some o)).1 = o.keysIn h ∧
      c.mappingIn (DeepCopy h (some o)).1 = o.mappingIn h := by
  refine ⟨_, rfl, ?_⟩
  cases hk : o.Keys with
  | none =>
    cases hm : o.Mapping with
    | none =>
      simp [DeepCopy, deepCopySlice, deepCopyMap, hk, hm, VarsObj.keysIn, VarsObj.mappingIn,
        Heap.elems]
    | some m =>
      simp only [DeepCopy, deepCopySlice, deepCopyMap, hk, hm, VarsObj.keysIn,
        VarsObj.mappingIn, Heap.elems]
      refine ⟨Nat.le_succ _, fun _ _ => trivial, ?_, ?_, ?_, trivial, ?_⟩
      · intro a ha
        simp [Nat.ne_of_lt ha]
      · intro s hs
        cases hs
      · intro a ha
        have : h.next = a := Option.some.inj ha
        subst this
        exact ⟨Nat.le_refl _, Nat.lt_succ_self _⟩
      · simp
  | some s0 =>
    cases hm : o.Mapping with
    | none =>
      simp only [DeepCopy, deepCopySlice, deepCopyMap, hk, hm, VarsObj.keysIn,
        VarsObj.mappingIn, Heap.elems]
      refine ⟨Nat.le_succ _, ?_, fun _ _ => trivial, ?_, ?_, ?_, trivial⟩
      · intro a ha
        simp [Nat.ne_of_lt ha]
      · intro s hs
        have : ({ arr := h.next, len := s0.len } : Slice) = s := Option.some.inj hs
        subst this
        exact ⟨Nat.le_refl _, Nat.lt_succ_self _⟩
      · intro a ha
        cases ha
      · simp [List.take_take]
    | some m =>
      simp only [DeepCopy, deepCopySlice, deepCopyMap, hk, hm, VarsObj.keysIn,
        VarsObj.mappingIn, Heap.elems]
      refine ⟨Nat.le_trans (Nat.le_succ _) (Nat.le_succ _), ?_, ?_, ?_, ?_, ?_, ?_⟩
      · intro a ha
        simp [Nat.ne_of_lt ha]
      · intro a ha
        simp [Nat.ne_of_lt (Nat.lt_succ_of_lt ha)]
      · intro s hs
        have : ({ arr := h.next, len := s0.len } : Slice) = s := Option.some.inj hs
        subst this
        exact ⟨Nat.le_refl _, Nat.lt_succ_of_lt (Nat.lt_succ_self _)⟩
      · intro a ha
        have : h.next + 1 = a := Option.some.inj ha
        subst this
        exact ⟨Nat.le_succ _, Nat.lt_succ_self _⟩
      · simp [List.take_take]
      · simp

end Taskfile

namespace Taskfile

theorem take_set_succ (x : String) :
    ∀ (l : List String) (n : Nat), n < l.length → (l.set n x).take (n + 1) = l.take n ++ [x]
  | [], n, h => by simp at h
  | a :: l, 0, _ => by simp
  | a :: l, n + 1, h => by
    have h1 : n < l.length := by simpa using h
    simp [List.set, List.take, take_set_succ x l n h1]

/-- Within a valid slice, `append` yields the elements followed by the new one. -/
theorem append_elems (h : Heap) (s : Option Slice) (x : String)
    (hv : ∀ s1, s = some s1 → s1.len ≤ (h.arrays s1.arr).length) :
    (h.append s x).1.elems (some (h.append s x).2) = h.elems s ++ [x] := by
  cases s with
  | none => simp [Heap.append, Heap.elems]
  | some s1 =>
    have hlen := hv s1 rfl
    by_cases hcap : s1.len < (h.arrays s1.arr).length
    · simp [Heap.append, Heap.elems, hcap, take_set_succ x _ _ hcap]
    · have hl : ((h.arrays s1.arr).take s1.len).length = s1.len := by
        simp [List.length_take, hlen]
      simp only [Heap.append, Heap.elems, hcap, if_false, if_true, List.append_assoc]
      rw [List.take_append_eq_append_take, hl]
      simp [List.take_take]

/-- Method `Set` in memory computes what `Set` computes on the value held. -/
theorem Set_read (o : VarsObj) (h : Heap) (key : String) (value : Var) (hv : o.Valid h) :
    (o.Set h key value).2.read (o.Set h key value).1 = (o.read h).Set key value := by
  have hgen : ∀ (r1 : Heap × Nat), r1.1.arrays = h.arrays → r1.1.maps r1.2 = o.mappingIn h →
      ({ Keys := (if (r1.1.elems o.Keys).contains key then (r1.1, o.Keys)
            else ((r1.1.append o.Keys key).1, some (r1.1.append o.Keys key).2)).2
         Mapping := some r1.2 } : VarsObj).read
        { (if (r1.1.elems o.Keys).contains key then (r1.1, o.Keys)
            else ((r1.1.append o.Keys key).1, some (r1.1.append o.Keys key).2)).1 with
          maps := fun b =>
            if b = r1.2 then fun k =>
              if k = key then some value
              else (if (r1.1.elems o.Keys).contains key then (r1.1, o.Keys)
                else ((r1.1.append o.Keys key).1, some (r1.1.append o.Keys key).2)).1.maps r1.2 k
            else (if (r1.1.elems o.Keys).contains key then (r1.1, o.Keys)
              else ((r1.1.append o.Keys key).1, some (r1.1.append o.Keys key).2)).1.maps b }
        = (o.read h).Set key value := by
    intro r1 harr hmap
    have helems : r1.1.elems o.Keys = o.keysIn h := by
      unfold VarsObj.keysIn Heap.elems
      rw [harr]
    have hvalid : ∀ s1, o.Keys = some s1 → s1.len ≤ (r1.1.arrays s1.arr).length := by
      intro s1 hs1
      rw [harr]
      exact (hv.1 s1 hs1).2
    cases hc : (r1.1.elems o.Keys).contains key with
    | true =>
      have hc2 : (o.keysIn h).contains key = true := by rw [← helems]; exact hc
      simp only [if_true, VarsObj.read, Vars.Set, VarsObj.keysIn, VarsObj.mappingIn]
      have hc3 : (h.elems o.Keys).contains key = true := hc2
      simp only [hc3, if_true, hmap]
      congr 1
    | false =>
      have hc2 : (o.keysIn h).contains key = false := by rw [← helems]; exact hc
      have hc3 : (h.elems o.Keys).contains key = false := hc2
      simp only [Bool.false_eq_true, if_false, VarsObj.read, Vars.Set, VarsObj.keysIn,
        VarsObj.mappingIn, hc3, append_maps, hmap]
      congr 1
      have := append_elems r1.1 o.Keys key hvalid
      rw [helems] at this
      exact this
  unfold VarsObj.Set
  cases hm : o.Mapping with
  | none =>
    exact hgen h.makeMap rfl (by simp [Heap.makeMap, VarsObj.mappingIn, hm])
  | some a0 =>
    exact hgen (h, a0) rfl (by simp [VarsObj.mappingIn, hm])

end Taskfile

namespace Taskfile

theorem read_congr (o o1 : VarsObj) (h h1 : Heap) (hk : o1.keysIn h1 = o.keysIn h)
    (hm : o1.mappingIn h1 = o.mappingIn h) : o1.read h1 = o.read h := by
  unfold VarsObj.read
  rw [hk, hm]

/-- A valid receiver stays valid across `DeepCopy`, and the copy is valid. -/
theorem DeepCopy_valid (h : Heap) (o : VarsObj) (hv : o.Valid h) :
    o.Valid (DeepCopy h (some o)).1 ∧
    ∀ c, (DeepCopy h (some o)).2 = some c → c.Valid (DeepCopy h (some o)).1 := by
  obtain ⟨c0, hc0, hnext, harr, _, hks, hms, _, _⟩ := DeepCopy_facts h o
  constructor
  · constructor
    · intro s hs
      obtain ⟨h1, h2⟩ := hv.1 s hs
      exact ⟨Nat.lt_of_lt_of_le h1 hnext, by rw [harr s.arr h1]; exact h2⟩
    · intro a ha
      exact Nat.lt_of_lt_of_le (hv.2 a ha) hnext
  · intro c hc
    rw [hc0] at hc
    have hcc : c0 = c := Option.some.inj hc
    subst hcc
    constructor
    · intro s hs
      refine ⟨(hks s hs).2, ?_⟩
      have hc1 : c0 = { Keys := (deepCopySlice h o.Keys).2
                        Mapping := (deepCopyMap (deepCopySlice h o.Keys).1 o.Mapping).2 } :=
        (Option.some.inj hc0).symm
      rw [hc1] at hs
      cases hk : o.Keys with
      | none =>
        rw [hk] at hs
        simp [deepCopySlice] at hs
      | some s0 =>
        rw [hk] at hs
        have hs2 : ({ arr := h.next, len := s0.len } : Slice) = s := by
          simpa [deepCopySlice] using hs
        subst hs2
        have hlen := (hv.1 s0 hk).2
        cases hm : o.Mapping with
        | none =>
          simp [DeepCopy, deepCopySlice, deepCopyMap, hk, hm, Heap.elems, List.length_take, hlen]
        | some m =>
          simp [DeepCopy, deepCopySlice, deepCopyMap, hk, hm, Heap.elems, List.length_take, hlen]
    · intro a ha
      exact (hms a ha).2

/-- C14: `DeepCopy` independence.  For a non-nil `Vars` the copy holds the same
key sequence and the same mapping, and copying leaves the receiver as it is;
`Set` on the copy changes the copy and leaves the key sequence and the whole
mapping of the receiver as they were; `Set` on the receiver changes the
receiver and leaves the copy as it was; and `DeepCopy` of nil is nil. -/
theorem deepCopy_independent (h : Heap) (vs : VarsObj) (hv : vs.Valid h) (k : String) (v : Var) :
    (∃ c, (DeepCopy h (some vs)).2 = some c ∧
      c.read (DeepCopy h (some vs)).1 = vs.read h ∧
      vs.read (DeepCopy h (some vs)).1 = vs.read h ∧
      (c.Set (DeepCopy h (some vs)).1 k v).2.read (c.Set (DeepCopy h (some vs)).1 k v).1
        = (vs.read h).Set k v ∧
      vs.read (c.Set (DeepCopy h (some vs)).1 k v).1 = vs.read h ∧
      (vs.Set (DeepCopy h (some vs)).1 k v).2.read (vs.Set (DeepCopy h (some vs)).1 k v).1
        = (vs.read h).Set k v ∧
      c.read (vs.Set (DeepCopy h (some vs)).1 k v).1 = vs.read h) ∧
    DeepCopy h none = (h, none) := by
  refine ⟨?_, rfl⟩
  obtain ⟨c, hc, hnext, harr, hmaps, hks, hms, hkeys, hmapping⟩ := DeepCopy_facts h vs
  obtain ⟨hvs1, hcv⟩ := DeepCopy_valid h vs hv
  have hcvalid := hcv c hc
  -- the receiver reads the same after the copy
  have hvsk : vs.keysIn (DeepCopy h (some vs)).1 = vs.keysIn h :=
    keysIn_congr vs h _ (fun s hs => harr s.arr (hv.1 s hs).1)
  have hvsm : vs.mappingIn (DeepCopy h (some vs)).1 = vs.mappingIn h :=
    mappingIn_congr vs h _ (fun a ha => hmaps a (hv.2 a ha))
  have hvsread : vs.read (DeepCopy h (some vs)).1 = vs.read h := read_congr vs vs h _ hvsk hvsm
  have hcread : c.read (DeepCopy h (some vs)).1 = vs.read h := read_congr vs c h _ hkeys hmapping
  refine ⟨c, hc, hcread, hvsread, ?_, ?_, ?_, ?_⟩
  · rw [Set_read c _ k v hcvalid, hcread]
  · -- `Set` on the copy writes to objects at or above `h.next` only
    have hk2 : vs.keysIn (c.Set (DeepCopy h (some vs)).1 k v).1 = vs.keysIn (DeepCopy h (some vs)).1 :=
      keysIn_congr vs _ _ (fun s hs =>
        Set_arrays_frame c _ k v s.arr (Nat.lt_of_lt_of_le (hv.1 s hs).1 hnext)
          (fun s1 hs1 e => absurd (hv.1 s hs).1 (Nat.not_lt.mpr (e ▸ (hks s1 hs1).1))))
    have hm2 : vs.mappingIn (c.Set (DeepCopy h (some vs)).1 k v).1 =
        vs.mappingIn (DeepCopy h (some vs)).1 :=
      mappingIn_congr vs _ _ (fun a ha =>
        Set_maps_frame c _ k v a (Nat.lt_of_lt_of_le (hv.2 a ha) hnext)
          (fun e => absurd (hv.2 a ha) (Nat.not_lt.mpr (hms a e).1)))
    rw [← hvsread]
    exact read_congr vs vs _ _ hk2 hm2
  · rw [Set_read vs _ k v hvs1, hvsread]
  · -- `Set` on the receiver writes to its own objects and to new ones only
    have hk2 : c.keysIn (vs.Set (DeepCopy h (some vs)).1 k v).1 = c.keysIn (DeepCopy h (some vs)).1 :=
      keysIn_congr c _ _ (fun s hs =>
        Set_arrays_frame vs _ k v s.arr (hks s hs).2
          (fun s1 hs1 e => absurd (hv.1 s1 hs1).1 (Nat.not_lt.mpr (e ▸ (hks s hs).1))))
    have hm2 : c.mappingIn (vs.Set (DeepCopy h (some vs)).1 k v).1 =
        c.mappingIn (DeepCopy h (some vs)).1 :=
      mappingIn_congr c _ _ (fun a ha =>
        Set_maps_frame vs _ k v a (hms a ha).2
          (fun e => absurd (hv.2 a e) (Nat.not_lt.mpr (hms a ha).1)))
    rw [← hcread]
    exact read_congr c c _ _ hk2 hm2

end Taskfile

namespace Taskfile

/-- C14 at an example: the copy of a `Vars` with the names `x`, `y`, whose slice
has a spare slot, is independent of it under `Set` of the existing key `x`. -/
theorem deepCopy_independent_witness :
    (∃ c, (DeepCopy exHeap (some exObj)).2 = some c ∧
      c.read (DeepCopy exHeap (some exObj)).1 = exObj.read exHeap ∧
      exObj.read (DeepCopy exHeap (some exObj)).1 = exObj.read exHeap ∧
      (c.Set (DeepCopy exHeap (some exObj)).1 "x" (lit "new")).2.read
          (c.Set (DeepCopy exHeap (some exObj)).1 "x" (lit "new")).1
        = (exObj.read exHeap).Set "x" (lit "new") ∧
      exObj.read (c.Set (DeepCopy exHeap (some exObj)).1 "x" (lit "new")).1
        = exObj.read exHeap ∧
      (exObj.Set (DeepCopy exHeap (some exObj)).1 "x" (lit "new")).2.read
          (exObj.Set (DeepCopy exHeap (some exObj)).1 "x" (lit "new")).1
        = (exObj.read exHeap).Set "x" (lit "new") ∧
      c.read (exObj.Set (DeepCopy exHeap (some exObj)).1 "x" (lit "new")).1
        = exObj.read exHeap) ∧
    DeepCopy exHeap none = (exHeap, none) :=
  deepCopy_independent exHeap exObj
    ⟨fun s hs => by
        have e : ({ arr := 0, len := 2 } : Slice) = s := Option.some.inj hs
        subst e
        decide,
      fun a ha => by
        have e : 1 = a := Option.some.inj ha
        subst e
        decide⟩
    "x" (lit "new")

/-- A struct copy that shares the references of the receiver is not independent:
after `Set` through the receiver, the shared map shows the new value. -/
theorem Set_shared_map_visible :
    exObj.mappingIn exHeap "x" = some (lit "ax") ∧
    exObj.mappingIn (exObj.Set exHeap "x" (lit "new")).1 "x" = some (lit "new") := by
  constructor
  · rfl
  · rfl

/-- On a map without nested maps `UnmarshalTOML` returns nil and appends the
top-level keys, in the order met, to the key sequence. -/
theorem tomlOuter_scalars (Sprintf : Dyn → String) (entries : List (String × Dyn)) (vs : Vars)
    (hsc : ∀ e ∈ entries, ∀ m, e.2 ≠ Dyn.table m) :
    (tomlOuter Sprintf entries vs).2 = none ∧
    (tomlOuter Sprintf entries vs).1.Keys = vs.Keys ++ entries.map Prod.fst ∧
    ∀ e ∈ entries, ∃ var, (tomlOuter Sprintf entries vs).1.Mapping e.1 = some var ∧
      var.Sh = "" ∧ ∃ e1 ∈ entries, e1.1 = e.1 ∧ var.Static = Sprintf e1.2 := by
  induction entries generalizing vs with
  | nil => simp [tomlOuter]
  | cons e rest ih =>
    obtain ⟨k, inter⟩ := e
    have hk : ∀ m, inter ≠ Dyn.table m := hsc (k, inter) (List.mem_cons_self _ _)
    have hrest : ∀ e ∈ rest, ∀ m, e.2 ≠ Dyn.table m := fun e he =>
      hsc e (List.mem_cons_of_mem _ he)
    have hstep : tomlOuter Sprintf ((k, inter) :: rest) vs =
        tomlOuter Sprintf rest
          { Keys := vs.Keys ++ [k]
            Mapping := fun x =>
              if x = k then some { Var.zero with Static := Sprintf inter } else vs.Mapping x } := by
      cases inter with
      | table m => exact absurd rfl (hk m)
      | str s => rfl
      | int i => rfl
      | bool b => rfl
      | list l => rfl
    rw [hstep]
    obtain ⟨h1, h2, h3⟩ := ih
      { Keys := vs.Keys ++ [k]
        Mapping := fun x =>
          if x = k then some { Var.zero with Static := Sprintf inter } else vs.Mapping x } hrest
    refine ⟨h1, by rw [h2]; simp, ?_⟩
    intro e he
    rcases List.mem_cons.mp he with rfl | he
    · by_cases hin : ∃ e1 ∈ rest, e1.1 = k
      · obtain ⟨e1, he1, hk1⟩ := hin
        obtain ⟨var, hv1, hv2, e2, he2, hk2, hst⟩ := h3 e1 he1
        rw [hk1] at hv1 hk2
        exact ⟨var, hv1, hv2, e2, List.mem_cons_of_mem _ he2, hk2, hst⟩
      · have hmap : ∀ (rs : List (String × Dyn)) (ws : Vars),
            (∀ e ∈ rs, ∀ m, e.2 ≠ Dyn.table m) → (¬ ∃ e1 ∈ rs, e1.1 = k) →
            (tomlOuter Sprintf rs ws).1.Mapping k = ws.Mapping k := by
          intro rs
          induction rs with
          | nil => intro ws _ _; rfl
          | cons r rs ih2 =>
            intro ws hsc2 hno
            obtain ⟨k2, i2⟩ := r
            have hne : k ≠ k2 := fun e => hno ⟨(k2, i2), List.mem_cons_self _ _, e.symm⟩
            have hno2 : ¬ ∃ e1 ∈ rs, e1.1 = k := fun ⟨e1, he1, hk1⟩ =>
              hno ⟨e1, List.mem_cons_of_mem _ he1, hk1⟩
            have hsc3 : ∀ e ∈ rs, ∀ m, e.2 ≠ Dyn.table m := fun e he =>
              hsc2 e (List.mem_cons_of_mem _ he)
            have hk2 : ∀ m, i2 ≠ Dyn.table m := hsc2 (k2, i2) (List.mem_cons_self _ _)
            cases i2 with
            | table m => exact absurd rfl (hk2 m)
            | str s => simp only [tomlOuter]; rw [ih2 _ hsc3 hno2]; simp [hne]
            | int i => simp only [tomlOuter]; rw [ih2 _ hsc3 hno2]; simp [hne]
            | bool b => simp only [tomlOuter]; rw [ih2 _ hsc3 hno2]; simp [hne]
            | list l => simp only [tomlOuter]; rw [ih2 _ hsc3 hno2]; simp [hne]
        refine ⟨{ Var.zero with Static := Sprintf inter }, ?_, rfl,
          (k, inter), List.mem_cons_self _ _, rfl, rfl⟩
        rw [hmap rest _ hrest hin]
        simp
    · obtain ⟨var, hv1, hv2, e2, he2, hk2, hst⟩ := h3 e he
      exact ⟨var, hv1, hv2, e2, List.mem_cons_of_mem _ he2, hk2, hst⟩

/-- The code rejects an unknown attribute only two levels down: under `G`, the
variable `FOO` with the inner key `bogus` is an error. -/
theorem unmarshalTOML_rejects_two_levels_down (Sprintf : Dyn → String) :
    (UnmarshalTOML Sprintf Vars.empty
      (.table [("G", .table [("FOO", .table [("bogus", .str "x")])])])).2 ≠ none := by
  simp [UnmarshalTOML, tomlOuter, tomlInner, FillStruct, SetField, FieldByName,
    show exportName "bogus" = "Bogus" from by decide]

end Taskfile
